import Mathlib

/-!
Verification of the torchsnapshot manifest/commit engine
(`torchsnapshot/snapshot.py`) against its natural-language specification.

The Python source is shallowly embedded: pure helper functions become Lean
functions over lists and association lists (Python dicts are insertion-ordered,
so they are modelled as association lists with unique keys); the cross-rank
collectives (all_gather, broadcast, scatter) are modelled by computing the
globally agreed result directly from the per-rank inputs; the commit protocol
is modelled as a small-step state machine over per-rank program counters.
-/

namespace TorchSnapshot

/-! ### Generic helpers -/

/-- Pointwise update of a function `Nat → α` at one index. -/
def upd {α : Type} (f : Nat → α) (i : Nat) (v : α) : Nat → α :=
  fun j => if j = i then v else f j

/-! ### C1: commit-ordering state machine

Models the commit skeleton shared by the synchronous path
(`Snapshot.take`, snapshot.py lines 228-240: `pending_io_work.sync_complete`,
then `pg_wrapper.barrier()`, then `if pg_wrapper.get_rank() == 0:
_write_snapshot_metadata`) and the asynchronous path
(`PendingSnapshot._complete_snapshot`, lines 1044-1054:
`pending_io_work.sync_complete`, then `barrier.arrive`, then
`if rank == 0: Snapshot._write_snapshot_metadata`, then `barrier.depart`).

The barrier primitive is not part of the sources under verification
(`PGWrapper.barrier` wraps a collective; `LinearBarrier` lives in
`dist_store.py`).  Modelled from the spec: a rank may proceed past the
barrier only once every participating rank has arrived
("Arriving -> Arrived(all ranks) -> (rank 0 writes metadata)").

Program counters per rank: 0 = not yet completed writes, 1 = writes complete,
2 = arrived at barrier, 3 = passed barrier, 4 = metadata written (rank 0). -/

structure CommitState where
  pc : Nat → Nat
  writesCompleted : Nat → Bool
  arrived : Nat → Bool
  metaWrites : List Nat

def commitInit : CommitState :=
  { pc := fun _ => 0
    writesCompleted := fun _ => false
    arrived := fun _ => false
    metaWrites := [] }

/-- One step of one rank of the commit protocol, for world size `N`. -/
inductive CommitStep (N : Nat) : CommitState → CommitState → Prop where
  | completeWrites (s : CommitState) (r : Nat) (hr : r < N) (hpc : s.pc r = 0) :
      CommitStep N s
        { s with pc := upd s.pc r 1, writesCompleted := upd s.writesCompleted r true }
  | arrive (s : CommitState) (r : Nat) (hr : r < N) (hpc : s.pc r = 1) :
      CommitStep N s
        { s with pc := upd s.pc r 2, arrived := upd s.arrived r true }
  | passBarrier (s : CommitState) (r : Nat) (hr : r < N) (hpc : s.pc r = 2)
      (hall : ∀ q, q < N → s.arrived q = true) :
      CommitStep N s { s with pc := upd s.pc r 3 }
  | writeMetadata (s : CommitState) (r : Nat) (hr : r < N) (hpc : s.pc r = 3)
      (hzero : r = 0) :
      CommitStep N s
        { s with pc := upd s.pc r 4, metaWrites := s.metaWrites ++ [r] }

/-- Executions of the commit protocol reachable from the initial state. -/
inductive CommitReachable (N : Nat) : CommitState → Prop where
  | init : CommitReachable N commitInit
  | step {s t : CommitState} : CommitReachable N s → CommitStep N s t →
      CommitReachable N t

/-- A concrete terminal state of a single-rank commit execution, used to
exercise the commit-ordering theorem on an explicit reachable state. -/
def commitWitnessState : CommitState :=
  { pc := upd (upd (upd (upd (fun _ => 0) 0 1) 0 2) 0 3) 0 4
    writesCompleted := upd (fun _ => false) 0 true
    arrived := upd (fun _ => false) 0 true
    metaWrites := [] ++ [0] }

/-! ### fnmatch-style glob matching

`fnmatch.fnmatch(path, pattern)` on Linux: `*` matches any character
sequence (including `/`), `?` matches one character, any other character
matches itself.  (Bracket character classes are not modelled; none of the
classification logic under verification constructs them.) -/

/-- Helper for `*`: try to match the continuation `k` against every suffix
of the string. -/
def globStar (k : List Char → Bool) : List Char → Bool
  | [] => k []
  | c :: cs => k (c :: cs) || globStar k cs

def globMatch : List Char → List Char → Bool
  | [], s => s.isEmpty
  | '*' :: ps, s => globStar (globMatch ps) s
  | '?' :: ps, s =>
    match s with
    | [] => false
    | _ :: cs => globMatch ps cs
  | p :: ps, s =>
    match s with
    | [] => false
    | c :: cs => p == c && globMatch ps cs

/-- `fnmatch.fnmatch(name, pat)`. -/
def fnmatchB (name pat : String) : Bool :=
  globMatch pat.toList name.toList

/-! ### C2 / C10: replication classification

`Snapshot._infer_replicated`, `Snapshot._coalesce_replicated`,
`Snapshot._coalesce_path_and_replicated` and
`Snapshot._calculate_replicated_entries` (snapshot.py lines 634-667,
784-818, 901-924).

A flattened value is represented by its logical path together with a flag
recording whether it is a `ShardedTensor`.  A registered app-state value is
either wrapped in `DistributedDataParallel` (with its ignore list and named
parameter/buffer names) or not. -/

structure DDPInfo where
  parametersToIgnore : List String
  namedParameters : List String
  namedBuffers : List String
deriving DecidableEq

inductive AppValue where
  | ddp (info : DDPInfo)
  | nonDdp
deriving DecidableEq

/-- `Snapshot._infer_replicated` (lines 901-917).  `os.path.join(key, name)`
is modelled as `key ++ "/" ++ name` (keys and names contain no leading
slashes). -/
def infer_replicated (replicated : List String)
    (app_state : List (String × AppValue)) : List String :=
  if "**" ∈ replicated then replicated
  else
    app_state.foldl
      (fun acc kv =>
        match kv.2 with
        | AppValue.ddp info =>
            if info.parametersToIgnore = [] then acc ++ [kv.1 ++ "/" ++ "**"]
            else
              acc ++ ((info.namedParameters ++ info.namedBuffers).filter
                  (fun n => n ∉ info.parametersToIgnore)).map
                (fun n => kv.1 ++ "/" ++ n)
        | AppValue.nonDdp => acc)
      replicated

/-- `Snapshot._coalesce_replicated` (lines 919-924):
`set.intersection(*map(set, global_replicated))`.  The Python set has no
canonical order; the intersection is modelled as the deduplicated first list
filtered by membership in all the others (all theorems about it are
membership statements). -/
def coalesce_replicated (global_replicated : List (List String)) : List String :=
  match global_replicated with
  | [] => []
  | g :: gs => g.dedup.filter (fun p => gs.all (fun l => l.contains p))

/-- Per-rank body of `Snapshot._calculate_replicated_entries` (lines 640-645):
the paths of the rank's flattened values that match one of the patterns and
are not sharded tensors.  The `Bool` in each pair records
`isinstance(val, ShardedTensor)`. -/
def local_replicated_paths (flattened : List (String × Bool))
    (replicated : List String) : List String :=
  (flattened.filter
    (fun pv => replicated.any (fun p => fnmatchB pv.1 p) && !pv.2)).map (·.1)

/-- Number of ranks whose gathered path list contains `p`
(`path_count`, lines 655-658). -/
def path_count (obj_list : List (List String)) (p : String) : Nat :=
  (obj_list.map (fun l => l.count p)).sum

/-- `Snapshot._calculate_replicated_entries` (lines 634-667), modelling the
`all_gather_object`/`broadcast_object_list` pair by computing the broadcast
result directly: rank 0 keeps those of its own candidate paths that were
gathered from every rank. -/
def calculate_replicated_entries (world_flattened : List (List (String × Bool)))
    (replicated : List String) : List String :=
  let world_size := world_flattened.length
  let obj_list := world_flattened.map (fun f => local_replicated_paths f replicated)
  (obj_list.getD 0 []).filter (fun p => path_count obj_list p = world_size)

/-- Result of `Snapshot._coalesce_path_and_replicated` (lines 784-818) as
observed by one rank: the broadcast path, the verified replicated patterns,
and whether the rank logged the path-divergence warning. -/
structure CoalesceResult where
  path : String
  replicated : List String
  pathWarning : Bool
deriving DecidableEq

/-- Per-rank input to `Snapshot._coalesce_path_and_replicated`. -/
structure RankInput where
  path : String
  replicated : List String
  app_state : List (String × AppValue)

/-- `Snapshot._coalesce_path_and_replicated` (lines 784-818) for the rank
`rank`, with the collectives modelled on the whole world's inputs:
`broadcast_object_list([path], src=0)` yields rank 0's path; a warning (and
no error) is logged when the rank's own path differs; the replicated
patterns are the intersection over all ranks of the locally inferred
patterns. -/
def coalesce_path_and_replicated (world : List RankInput) (rank : Nat) :
    CoalesceResult :=
  let path0 := (world.map (·.path)).getD 0 ""
  let own := (world.map (·.path)).getD rank ""
  let global_replicated :=
    world.map (fun r => infer_replicated r.replicated r.app_state)
  { path := path0
    replicated := coalesce_replicated global_replicated
    pathWarning := path0 ≠ own }

/-- Per-rank input to a `take`: the user-supplied replicated glob patterns,
the registered app state (for DDP-based pattern inference), and the rank's
flattened values (path plus a flag recording whether the value is a
`ShardedTensor`). -/
structure TakeRankInput where
  replicated : List String
  app_state : List (String × AppValue)
  flattened : List (String × Bool)

/-- The patterns actually used for classification in a `take`: every rank
augments its user patterns by DDP inference (`_infer_replicated`), the lists
are all-gathered, and their set intersection is taken
(`_coalesce_replicated`), as orchestrated by `_coalesce_path_and_replicated`
(lines 806-812). -/
def effective_patterns (world : List TakeRankInput) : List String :=
  coalesce_replicated
    (world.map (fun r => infer_replicated r.replicated r.app_state))

/-- Concrete two-rank world used to exercise the classification theorem. -/
def c2WitnessWorld : List TakeRankInput :=
  [{ replicated := ["m/**"], app_state := [],
     flattened := [("m/w", false), ("q", false)] },
   { replicated := ["m/**"], app_state := [],
     flattened := [("m/w", false)] }]

/-! ### C3 / C4: chunk model and the replica partitioner

`Snapshot._partition_replicated_paths` (snapshot.py lines 860-899). -/

/-- `io_preparer.Chunk`: per-dimension offsets and sizes plus a dtype string. -/
structure Chunk where
  offsets : List Nat
  sizes : List Nat
  dtype : String
deriving DecidableEq

/-- Modelled from the spec: `dtype_to_element_size(string_to_dtype(dtype))`
(torchsnapshot/serialization.py, not among the sources) — the element size
in bytes of a dtype given by its string name. -/
def dtypeElementSize : String → Nat
  | "float64" => 8
  | "int64" => 8
  | "complex128" => 16
  | "complex64" => 8
  | "float32" => 4
  | "int32" => 4
  | "float16" => 2
  | "bfloat16" => 2
  | "int16" => 2
  | "uint8" => 1
  | "int8" => 1
  | "bool" => 1
  | _ => 4

/-- Byte size of one chunk: `reduce(mul, chunk.sizes) * element_size`
(line 880).  (`reduce` over the nonempty per-dimension size list is the
product of the dimension sizes.) -/
def chunkByteSize (c : Chunk) : Nat :=
  c.sizes.prod * dtypeElementSize c.dtype

abbrev ChunkingInstructions := List (String × List Chunk)

/-- The `(path, chunk, size)` triples collected from the chunked replicated
paths, in replicated-path order then chunk order (lines 875-881). -/
def collectChunkedPaths (replicated_paths : List String)
    (chunking_instructions : ChunkingInstructions) :
    List (String × Chunk × Nat) :=
  replicated_paths.flatMap (fun p =>
    match chunking_instructions.lookup p with
    | some chunks => chunks.map (fun c => (p, c, chunkByteSize c))
    | none => [])

/-- The replicated paths with no chunking instruction, in order
(lines 882-883). -/
def collectNonchunkedPaths (replicated_paths : List String)
    (chunking_instructions : ChunkingInstructions) : List String :=
  replicated_paths.filter (fun p => (chunking_instructions.lookup p).isNone)

/-- Descending byte-size order on the collected triples
(`chunked_paths.sort(key=lambda t: t[2], reverse=True)`, line 885).
Python's sort is stable; `List.insertionSort` with this non-strict relation
is the stable descending sort. -/
def chunkSizeDescR (a b : String × Chunk × Nat) : Prop :=
  b.2.2 ≤ a.2.2

instance : DecidableRel chunkSizeDescR :=
  fun a b => inferInstanceAs (Decidable (b.2.2 ≤ a.2.2))

instance : IsTotal (String × Chunk × Nat) chunkSizeDescR :=
  ⟨fun a b => le_total b.2.2 a.2.2⟩

instance : IsTrans (String × Chunk × Nat) chunkSizeDescR :=
  ⟨fun _ _ _ hab hbc => le_trans hbc hab⟩

/-- `np.argmin(sizes)` (line 889): the first index attaining the minimum. -/
def argminIdx : List Nat → Nat
  | [] => 0
  | x :: xs => if xs.all (fun y => x ≤ y) then 0 else 1 + argminIdx xs

/-- One rank's partition slot: chunking instructions assigned to the rank
plus the non-chunked paths assigned to the rank (`({}, [])`, line 871). -/
abbrev PartitionResult := List (String × List Chunk) × List String

/-- Appending a chunk under a path in a rank's chunking-instruction dict
(lines 890-893): extend the existing list, else insert a new binding. -/
def addChunkToResult (m : List (String × List Chunk)) (p : String) (c : Chunk) :
    List (String × List Chunk) :=
  if m.any (fun e => e.1 = p) then
    m.map (fun e => if e.1 = p then (e.1, e.2 ++ [c]) else e)
  else m ++ [(p, [c])]

/-- The greedy loop of lines 888-894: assign each triple to the rank with
the currently smallest running byte total, updating that rank's slot and
running total. -/
def greedyAssignChunks :
    List (String × Chunk × Nat) → List PartitionResult → List Nat →
    List PartitionResult × List Nat
  | [], prs, sizes => (prs, sizes)
  | pcs :: rest, prs, sizes =>
    let m := argminIdx sizes
    let pr := prs.getD m ([], [])
    greedyAssignChunks rest
      (prs.set m (addChunkToResult pr.1 pcs.1 pcs.2.1, pr.2))
      (sizes.set m (sizes.getD m 0 + pcs.2.2))

/-- The round-robin loop of lines 897-898: the non-chunked path with
enumeration index `i` goes to rank `i % world_size`. -/
def roundRobinAssign (world_size : Nat) :
    Nat → List String → List PartitionResult → List PartitionResult
  | _, [], prs => prs
  | i, p :: rest, prs =>
    let r := i % world_size
    let pr := prs.getD r ([], [])
    roundRobinAssign world_size (i + 1) rest (prs.set r (pr.1, pr.2 ++ [p]))

/-- `Snapshot._partition_replicated_paths` (lines 860-899). -/
def partition_replicated_paths (replicated_paths : List String)
    (chunking_instructions : ChunkingInstructions) (world_size : Nat) :
    List PartitionResult :=
  let chunked := collectChunkedPaths replicated_paths chunking_instructions
  let nonchunked := collectNonchunkedPaths replicated_paths chunking_instructions
  let sorted := List.insertionSort chunkSizeDescR chunked
  let init := List.replicate world_size (([], []) : PartitionResult)
  let res := greedyAssignChunks sorted init (List.replicate world_size 0)
  roundRobinAssign world_size 0 nonchunked res.1

/-- Observer: the sequence of greedy assignments — each collected triple
paired with the rank `np.argmin` picked for it, threading the running
totals exactly as the loop of lines 888-894 does. -/
def assignSeq :
    List (String × Chunk × Nat) → List Nat → List ((String × Chunk × Nat) × Nat)
  | [], _ => []
  | it :: rest, sizes =>
    let m := argminIdx sizes
    (it, m) :: assignSeq rest (sizes.set m (sizes.getD m 0 + it.2.2))

/-- Observer: the running byte totals after processing a list of triples. -/
def sizesOnly : List (String × Chunk × Nat) → List Nat → List Nat
  | [], sizes => sizes
  | it :: rest, sizes =>
    let m := argminIdx sizes
    sizesOnly rest (sizes.set m (sizes.getD m 0 + it.2.2))

/-- Observer: replay a filtered assignment sequence into one rank's slot,
exactly as the greedy loop body does for that rank. -/
def applyAssigned (pr : PartitionResult)
    (xs : List ((String × Chunk × Nat) × Nat)) : PartitionResult :=
  xs.foldl (fun pr x => (addChunkToResult pr.1 x.1.1 x.1.2.1, pr.2)) pr

/-- Default element for indexing into assignment sequences. -/
def defaultTriple : (String × Chunk × Nat) × Nat :=
  (("", { offsets := [], sizes := [], dtype := "" }, 0), 0)

/-- Observer: the collected triples in the order the greedy loop processes
them — sorted by descending byte size (line 885). -/
def sortedChunkedPaths (replicated_paths : List String)
    (chunking_instructions : ChunkingInstructions) :
    List (String × Chunk × Nat) :=
  List.insertionSort chunkSizeDescR
    (collectChunkedPaths replicated_paths chunking_instructions)

/-- Observer: the greedy assignment sequence of the partitioner, starting
from all-zero running totals. -/
def partitionAssignment (replicated_paths : List String)
    (chunking_instructions : ChunkingInstructions) (world_size : Nat) :
    List ((String × Chunk × Nat) × Nat) :=
  assignSeq (sortedChunkedPaths replicated_paths chunking_instructions)
    (List.replicate world_size 0)

/-- Observer: the running per-rank byte totals just before the greedy loop
processes the triple at position `k`. -/
def partitionLoads (replicated_paths : List String)
    (chunking_instructions : ChunkingInstructions) (world_size : Nat)
    (k : Nat) : List Nat :=
  sizesOnly ((sortedChunkedPaths replicated_paths chunking_instructions).take k)
    (List.replicate world_size 0)

/-- Concrete chunking instructions used to exercise the partitioner
theorems: path `a` split in two chunks, path `b` in one, path `c` not
chunked. -/
def partitionWitnessCI : ChunkingInstructions :=
  [("a", [{ offsets := [0], sizes := [3], dtype := "float32" },
          { offsets := [3], sizes := [2], dtype := "float32" }]),
   ("b", [{ offsets := [0], sizes := [4], dtype := "float32" }])]

/-- Total chunk bytes recorded in a chunking-instruction dict. -/
def chunkMapBytes (m : List (String × List Chunk)) : Nat :=
  (m.map (fun e => (e.2.map chunkByteSize).sum)).sum

/-- Chunk bytes assigned to one rank's slot. -/
def resultChunkBytes (pr : PartitionResult) : Nat :=
  chunkMapBytes pr.1

/-- Total bytes assigned to one rank's slot, counting both chunk bytes and
the byte sizes of the non-chunked paths (the latter given by `pathBytes`,
since the partitioner itself never inspects them). -/
def resultTotalBytes (pathBytes : String → Nat) (pr : PartitionResult) : Nat :=
  resultChunkBytes pr + (pr.2.map pathBytes).sum

/-- Byte size of the largest single chunk among the collected triples. -/
def largestChunkBytes (replicated_paths : List String)
    (chunking_instructions : ChunkingInstructions) : Nat :=
  ((collectChunkedPaths replicated_paths chunking_instructions).map
    (·.2.2)).foldr max 0

/-! ### C5: entry model and manifest merging

`Snapshot._gather_manifest` (snapshot.py lines 954-986).  The entry variants
come from `torchsnapshot/manifest.py` (not among the sources).  Modelled from
the spec: `Entry` is a closed tagged union
`Primitive | Tensor | ChunkedTensor | Sharded`, every entry carries a
`replicated` flag, and `is_replicated(entry)` reads that flag. -/

inductive Entry where
  | primitive (replicated : Bool)
  | tensor (replicated : Bool)
  | chunkedTensor (chunks : List Chunk) (replicated : Bool)
  | sharded (replicated : Bool)
deriving DecidableEq

def is_replicated : Entry → Bool
  | Entry.primitive r => r
  | Entry.tensor r => r
  | Entry.chunkedTensor _ r => r
  | Entry.sharded r => r

def Entry.isChunkedTensor : Entry → Bool
  | Entry.chunkedTensor _ _ => true
  | _ => false

/-- A rank's local manifest: insertion-ordered `path -> entry` dict. -/
abbrev LocalManifest := List (String × Entry)

/-- Processing one replicated `(path, entry)` pair against the accumulated
`replicated_entries` dict (lines 966-975): first contribution is inserted;
a later contribution must be a `ChunkedTensorEntry` (else the
`AssertionError` of lines 968-971) extending the chunks of an existing
`ChunkedTensorEntry` (a non-chunked existing entry has no `chunks`
attribute, so Python raises `AttributeError`). -/
def extendReplicatedEntry (acc : List (String × Entry)) (p : String)
    (e : Entry) : Except String (List (String × Entry)) :=
  match acc.lookup p with
  | none => Except.ok (acc ++ [(p, e)])
  | some old =>
    match e with
    | Entry.chunkedTensor cs _ =>
      match old with
      | Entry.chunkedTensor cs0 r0 =>
          Except.ok (acc.map (fun pe =>
            if pe.1 = p then (pe.1, Entry.chunkedTensor (cs0 ++ cs) r0) else pe))
      | _ => Except.error "AttributeError: entry has no attribute chunks"
    | _ =>
      Except.error
        "Only one rank should emit the entry for a replicated path unless the entry is ChunkedTensorEntry."

/-- The first loop of `_gather_manifest` (lines 960-975): fold every rank's
replicated entries, in rank order then insertion order, into the
`replicated_entries` dict. -/
def collectReplicatedEntries (manifests : List LocalManifest) :
    Except String (List (String × Entry)) :=
  manifests.foldlM
    (fun acc m =>
      m.foldlM
        (fun acc pe =>
          if is_replicated pe.2 then extendReplicatedEntry acc pe.1 pe.2
          else Except.ok acc)
        acc)
    []

/-- Python's `list.__lt__` on the per-dimension offset lists: lexicographic
comparison, a shorter list being smaller than its extensions (the sort key
`lambda x: x.offsets` of line 979). -/
def lexLe : List Nat → List Nat → Bool
  | [], _ => true
  | _ :: _, [] => false
  | a :: as_, b :: bs =>
    if a < b then true
    else if b < a then false
    else lexLe as_ bs

def chunkOffsetsLeR (a b : Chunk) : Prop := lexLe a.offsets b.offsets = true

instance : DecidableRel chunkOffsetsLeR :=
  fun a b => inferInstanceAs (Decidable (lexLe a.offsets b.offsets = true))

/-- The chunk re-sorting of lines 977-979: sort the chunk list of every
merged `ChunkedTensorEntry` by chunk offsets (stable, like Python's sort). -/
def sortEntryChunks : Entry → Entry
  | Entry.chunkedTensor cs r => Entry.chunkedTensor (List.insertionSort chunkOffsetsLeR cs) r
  | e => e

/-- Lines 981-983: write every merged replicated entry into a rank's local
manifest (`manifest[path] = entry`): existing keys are overwritten in place,
new keys are appended in `replicated_entries` order. -/
def applyReplicatedToManifest (m : LocalManifest)
    (repl : List (String × Entry)) : LocalManifest :=
  m.map (fun pe =>
      (pe.1,
        match repl.lookup pe.1 with
        | some e => e
        | none => pe.2))
    ++ repl.filter (fun pe => (m.lookup pe.1).isNone)

/-- `Snapshot._gather_manifest` (lines 954-986), with the
`all_gather_object` modelled by taking the per-rank manifests directly.
The global key `os.path.join(str(rank), logical_path)` is modelled as the
pair `(rank, logical_path)` (the string join is injective since a rank's
decimal digits contain no slash). -/
def gather_manifest (manifests : List LocalManifest) :
    Except String (List ((Nat × String) × Entry)) :=
  match collectReplicatedEntries manifests with
  | Except.error e => Except.error e
  | Except.ok repl =>
    let replSorted := repl.map (fun pe => (pe.1, sortEntryChunks pe.2))
    Except.ok
      ((manifests.enum).flatMap (fun rm =>
        (applyReplicatedToManifest rm.2 replSorted).map
          (fun pe => ((rm.1, pe.1), pe.2))))

/-- Observer: the replicated contributions for path `p` among a flat list of
`(path, entry)` pairs, in order. -/
def pathContribs (l : List (String × Entry)) (p : String) : List Entry :=
  (l.filter (fun pe => decide (pe.1 = p) && is_replicated pe.2)).map (·.2)

/-- Observer: the replicated contributions for path `p`, in rank order then
insertion order — exactly the pairs the first loop of `_gather_manifest`
feeds to `extendReplicatedEntry` for `p`. -/
def replicatedContribs (manifests : List LocalManifest) (p : String) :
    List Entry :=
  pathContribs (manifests.flatMap id) p

/-- Observer: the fold of the first `_gather_manifest` loop over a flat list
of `(path, entry)` pairs, starting from a given `replicated_entries` dict. -/
def foldRepl (acc : List (String × Entry)) (l : List (String × Entry)) :
    Except String (List (String × Entry)) :=
  l.foldlM
    (fun acc pe =>
      if is_replicated pe.2 then extendReplicatedEntry acc pe.1 pe.2
      else Except.ok acc)
    acc

/-- Observer: folding the contributions for a single path, mirroring
`extendReplicatedEntry` restricted to that path. -/
def combineContribs (acc : Option Entry) : List Entry → Except String (Option Entry)
  | [] => Except.ok acc
  | e :: rest =>
    match acc with
    | none => combineContribs (some e) rest
    | some old =>
      match e with
      | Entry.chunkedTensor cs _ =>
        match old with
        | Entry.chunkedTensor cs0 r0 =>
            combineContribs (some (Entry.chunkedTensor (cs0 ++ cs) r0)) rest
        | _ => Except.error "AttributeError: entry has no attribute chunks"
      | _ =>
        Except.error
          "Only one rank should emit the entry for a replicated path unless the entry is ChunkedTensorEntry."

/-- Observer: all chunks contributed for a path, concatenated in
contribution order. -/
def contribChunks (es : List Entry) : List Chunk :=
  es.flatMap (fun e =>
    match e with
    | Entry.chunkedTensor cs _ => cs
    | _ => [])

/-- Concrete two-rank manifests used to exercise the merge theorem: both
ranks contribute one chunk of the replicated chunked entry `w`; rank 0 also
holds a per-rank tensor `x`. -/
def gatherWitnessManifests : List LocalManifest :=
  [[("w", Entry.chunkedTensor
        [{ offsets := [4], sizes := [4], dtype := "float32" }] true),
    ("x", Entry.tensor false)],
   [("w", Entry.chunkedTensor
        [{ offsets := [0], sizes := [4], dtype := "float32" }] true)]]

/-- The merged global manifest produced for `gatherWitnessManifests`. -/
def gatherWitnessResult : List ((Nat × String) × Entry) :=
  [((0, "w"), Entry.chunkedTensor
      [{ offsets := [0], sizes := [4], dtype := "float32" },
       { offsets := [4], sizes := [4], dtype := "float32" }] true),
   ((0, "x"), Entry.tensor false),
   ((1, "w"), Entry.chunkedTensor
      [{ offsets := [0], sizes := [4], dtype := "float32" },
       { offsets := [4], sizes := [4], dtype := "float32" }] true)]

/-! ### C6 / C9: RNG-state sequencing in `_take_impl`

`Snapshot._pop_rng_state` (snapshot.py lines 933-952) and the RNG-relevant
skeleton of `Snapshot._take_impl` (lines 328-373).

A stateful is modelled by its effect on the ambient RNG state (of abstract
type `R`): `RNGState.state_dict` returns the current RNG state without
perturbing it and `RNGState.load_state_dict` overwrites the RNG state
(modelled from the spec — `torchsnapshot/rng_state.py` is not among the
sources; the engine treats `state_dict`/`load_state_dict` of other statefuls
as an opaque capability whose invocation may perturb the RNG state
arbitrarily, hence `ordinary f` with an arbitrary `f : R → R`). -/

inductive TStateful (R : Type) where
  | rngState
  | ordinary (stateDictEffect : R → R)

def TStateful.isRNGState {R : Type} : TStateful R → Bool
  | TStateful.rngState => true
  | TStateful.ordinary _ => false

/-- `Snapshot._pop_rng_state` (lines 933-952): error when more than one
`RNGState` is registered; otherwise remove and return the unique one. -/
def pop_rng_state {R : Type} (app_state : List (String × TStateful R)) :
    Except String (Option (String × TStateful R) × List (String × TStateful R)) :=
  let rng_state_items := app_state.filter (fun kv => kv.2.isRNGState)
  if rng_state_items.length > 1 then
    Except.error "Multiple RNGState objects in app state"
  else
    match rng_state_items with
    | (key, stateful) :: _ =>
        Except.ok (some (key, stateful), app_state.filter (fun kv => kv.1 ≠ key))
    | [] => Except.ok (none, app_state)

/-- `Snapshot._gather_keys` (lines 926-931): `sorted(set(keys))`. -/
def gather_keys (keys : List String) : List String :=
  List.insertionSort (fun a b => a ≤ b) keys.dedup

/-- RNGState.load_state_dict: overwrite the RNG state with the captured
state dict (modelled from the spec). -/
def rngLoadStateDict {R : Type} (captured : R) (_current : R) : R := captured

/-- The RNG-relevant skeleton of `Snapshot._take_impl` (lines 328-373):
pop the RNG stateful; capture its state dict first (before any other
stateful's `state_dict` runs); invoke the remaining statefuls'
`state_dict` methods in globally gathered sorted key order; then restore
the captured RNG state via `load_state_dict`.  Returns the captured RNG
state (what the snapshot persists) and the final ambient RNG state. -/
def take_impl_rng {R : Type} (app_state : List (String × TStateful R)) (rng : R) :
    Except String (Option R × R) :=
  match pop_rng_state app_state with
  | Except.error e => Except.error e
  | Except.ok (rng_state_item, rest) =>
    let runOthers : R → R := fun r0 =>
      (gather_keys (rest.map (·.1))).foldl
        (fun r key =>
          match rest.lookup key with
          | some (TStateful.ordinary f) => f r
          | some TStateful.rngState => r
          | none => r)
        r0
    match rng_state_item with
    | some _ =>
      let rng_state_dict := rng
      let afterOthers := runOthers rng
      Except.ok (some rng_state_dict, rngLoadStateDict rng_state_dict afterOthers)
    | none => Except.ok (none, runOthers rng)

/-! ### C7: `Snapshot._load_stateful`

snapshot.py lines 679-761.  The restore-side effects that matter to the
claim are the execution of read requests against storage
(`sync_execute_read_reqs`, line 752) and the call of the stateful's
`load_state_dict` (line 761); both happen strictly after the loop that
checks every requested path against the available-entries view, so a
missing path aborts before either effect.  Read-request preparation
(`prepare_read`, io_preparer.py, not among the sources) is modelled as one
abstract request per non-primitive entry, keyed by the logical path. -/

structure RestoreWorld where
  readsExecuted : List String
  loadedStatefuls : List String
deriving DecidableEq

inductive LoadError where
  | pathUnavailable (statefulKey : String) (path : String) (message : String)
deriving DecidableEq

/-- The guidance text of the error message (lines 709-724), first bullet:
the entry was never persisted. -/
def guidanceNeverPersisted : String :=
  "- If the entry does not exist in the snapshot, it means that the state dict entry was introduced after the snapshot was taken. To partially restore from the snapshot, please explicitly ignore the state dict entries missing from the snapshot."

/-- The guidance text of the error message (lines 709-724), second bullet:
the entry exists but was persisted per-rank under a different world size;
re-take with replication hints or coerce the entry to replicated. -/
def guidanceWorldSizeChanged : String :=
  "- If the entry exists in the snapshot, it could mean that the world size has changed and the entry was not marked as replicated when the snapshot was taken. To resolve the issue, try any of: Re-taking the snapshot with the new world size; Re-taking the snapshot with the original world size, ensuring all non-sharded values are marked as replicated; Coerce the missing entry into replicated on restore"

/-- The full message of the `RuntimeError` raised at lines 708-725. -/
def pathUnavailableMessage (statefulKey path : String) (rank : Nat) : String :=
  "When restoring from the snapshot, stateful object " ++ statefulKey ++
    " requested path " ++ path ++ " which was not available to rank " ++
    toString rank ++ ".\n" ++ guidanceNeverPersisted ++ "\n" ++
    guidanceWorldSizeChanged

/-- The read requests prepared for one available entry (abstracted:
primitive entries are materialized inline with no read request, line 728-731;
every other entry contributes requests via `prepare_read`, modelled as one
request for the logical path). -/
def readReqsForEntry (p : String) : Entry → List String
  | Entry.primitive _ => []
  | _ => [p]

/-- The request-collection loop of lines 705-746: walk the stateful's
flattened paths in order; abort with the `RuntimeError` of lines 708-725 at
the first path missing from the available-entries view; otherwise
accumulate read requests. -/
def collectReadReqs (statefulKey : String) (rank : Nat)
    (available_entries : List (String × Entry)) :
    List String → Except LoadError (List String)
  | [] => Except.ok []
  | p :: rest =>
    match available_entries.lookup p with
    | none =>
        Except.error
          (LoadError.pathUnavailable statefulKey p
            (pathUnavailableMessage statefulKey p rank))
    | some e =>
        match collectReadReqs statefulKey rank available_entries rest with
        | Except.error err => Except.error err
        | Except.ok reqs => Except.ok (readReqsForEntry p e ++ reqs)

/-- `Snapshot._load_stateful` (lines 679-761) acting on the restore-side
world: on success the collected read requests are executed and the
stateful's `load_state_dict` is called; on a missing path the world is
left untouched and the error is raised. -/
def load_stateful (rank : Nat) (stateful_key : String)
    (flattenedPaths : List String) (available_entries : List (String × Entry))
    (w : RestoreWorld) : RestoreWorld × Option LoadError :=
  match collectReadReqs stateful_key rank available_entries flattenedPaths with
  | Except.error err => (w, some err)
  | Except.ok reqs =>
      ({ readsExecuted := w.readsExecuted ++ reqs
         loadedStatefuls := w.loadedStatefuls ++ [stateful_key] }, none)

/-! ### C8: `PendingSnapshot._complete_snapshot` / `wait` / `done`

snapshot.py lines 989-1076.  The background thread's body is a function of
the outcomes of its four suspension points (completing the pending I/O
work, the barrier arrive, the metadata write, the barrier depart), each an
`Except` supplied by the environment.  The terminal handle state records
what the claim observes: the captured `exc_info`, the `_done` flag, the
logged warning, the error reported into the store-based barrier, whether
the metadata write was performed, and that storage was closed. -/

structure PendingState where
  excInfo : Option String
  doneFlag : Bool
  loggedFailure : Option String
  barrierErrorReported : Option String
  metadataWritten : Bool
  storageClosed : Bool
deriving DecidableEq

/-- Terminal state of the `except`/`finally` of lines 1055-1064: the
exception is reported into the barrier store, captured into `exc_info`,
and logged; storage is closed and `_done` is set. -/
def pendingFailState (e : String) (metaDone : Bool) : PendingState :=
  { excInfo := some e
    doneFlag := true
    loggedFailure := some e
    barrierErrorReported := some e
    metadataWritten := metaDone
    storageClosed := true }

/-- Terminal state when the `try` body of lines 1044-1054 runs to the end. -/
def pendingOkState (metaDone : Bool) : PendingState :=
  { excInfo := none
    doneFlag := true
    loggedFailure := none
    barrierErrorReported := none
    metadataWritten := metaDone
    storageClosed := true }

/-- `PendingSnapshot._complete_snapshot` (lines 1022-1064): run
`pending_io_work.sync_complete`, `barrier.arrive`, for rank 0 the metadata
write, then `barrier.depart`, capturing the first failure. -/
def complete_snapshot (rank : Nat)
    (ioWork arriveRes writeMeta departRes : Except String Unit) : PendingState :=
  match ioWork with
  | Except.error e => pendingFailState e false
  | Except.ok _ =>
    match arriveRes with
    | Except.error e => pendingFailState e false
    | Except.ok _ =>
      if rank = 0 then
        match writeMeta with
        | Except.error e => pendingFailState e false
        | Except.ok _ =>
          match departRes with
          | Except.error e => pendingFailState e true
          | Except.ok _ => pendingOkState true
      else
        match departRes with
        | Except.error e => pendingFailState e false
        | Except.ok _ => pendingOkState false

/-- Observer: the first failure the `try` body of lines 1044-1054 hits,
given the four suspension-point outcomes. -/
def firstFailure (rank : Nat)
    (ioWork arriveRes writeMeta departRes : Except String Unit) : Option String :=
  match ioWork with
  | Except.error e => some e
  | Except.ok _ =>
    match arriveRes with
    | Except.error e => some e
    | Except.ok _ =>
      match (if rank = 0 then writeMeta else Except.ok ()) with
      | Except.error e => some e
      | Except.ok _ =>
        match departRes with
        | Except.error e => some e
        | Except.ok _ => none

/-- `PendingSnapshot.wait` (lines 1066-1073): join the thread, then
re-raise a captured failure (wrapping the formatted original cause in a
`RuntimeError`), else return the committed snapshot's path. -/
def pendingWait (s : PendingState) (path : String) : Except String String :=
  match s.excInfo with
  | some e =>
      Except.error
        ("Encountered exception while taking snapshot asynchronously:\n" ++ e)
  | none => Except.ok path

/-- `PendingSnapshot.done` (lines 1075-1076): non-blocking read of `_done`. -/
def pendingDone (s : PendingState) : Bool := s.doneFlag

/-! ## Theorems -/

/-- C9: `take`, `async_take` and `restore` all call `_pop_rng_state` on the
app state before doing anything else with it (snapshot.py lines 329 and 469),
and `_pop_rng_state` raises its `RuntimeError` ("Multiple RNGState objects in
app state") exactly when more than one `RNGState`-typed object is registered;
with zero or one `RNGState` object it returns normally. -/
theorem multiple_rng_state_error_iff {R : Type}
    (app_state : List (String × TStateful R)) :
    (∃ e, pop_rng_state app_state = Except.error e) ↔
      1 < (app_state.filter (fun kv => kv.2.isRNGState)).length := by
  by_cases h : 1 < (app_state.filter (fun kv => kv.2.isRNGState)).length
  · simp only [pop_rng_state, gt_iff_lt, if_pos h]
    exact ⟨fun _ => h, fun _ => ⟨_, rfl⟩⟩
  · simp only [pop_rng_state, gt_iff_lt, if_neg h]
    constructor
    · rintro ⟨e, he⟩
      split at he <;> simp_all
    · intro hc
      exact absurd hc h

/-- C10: when ranks pass different `path` arguments,
`_coalesce_path_and_replicated` raises no error: the returned path is always
rank 0's path (`broadcast_object_list([path], src=0)`, lines 798-799), the
divergence is only reflected in the logged warning (lines 800-804), and
every rank ends up using the same rank-0 path for its storage plugin
(`Snapshot.take`/`async_take` construct storage from the returned path,
lines 210-218 and 286-294). -/
theorem path_divergence_uses_rank0 (world : List RankInput) (rank : Nat)
    (_hr : rank < world.length) :
    (coalesce_path_and_replicated world rank).path = (world.map (·.path)).getD 0 ""
    ∧ ((coalesce_path_and_replicated world rank).pathWarning = true ↔
        (world.map (·.path)).getD 0 "" ≠ (world.map (·.path)).getD rank "")
    ∧ (∀ r, r < world.length →
        (coalesce_path_and_replicated world r).path =
          (coalesce_path_and_replicated world 0).path) := by
  refine ⟨rfl, ?_, fun r _ => rfl⟩
  simp [coalesce_path_and_replicated]

/-- C10 witness: two ranks pass different paths; the result is rank 0's path
with only a warning. -/
theorem path_divergence_uses_rank0_witness :
    (1 <
      ([{ path := "s3://a", replicated := [], app_state := [] },
        { path := "s3://b", replicated := [], app_state := [] }] :
          List RankInput).length)
    ∧ (coalesce_path_and_replicated
        [{ path := "s3://a", replicated := [], app_state := [] },
         { path := "s3://b", replicated := [], app_state := [] }] 1).path =
      "s3://a" :=
  ⟨by decide,
    (path_divergence_uses_rank0
      [{ path := "s3://a", replicated := [], app_state := [] },
       { path := "s3://b", replicated := [], app_state := [] }] 1 (by decide)).1⟩

/-- C8: the background commit task (`_complete_snapshot`) always runs to its
terminal state (sets `_done`, closes storage) whether or not `wait` is ever
invoked; its first failure is captured as `exc_info` with the original cause,
logged, and re-raised (wrapped in a `RuntimeError`) to whoever calls `wait`;
on success `wait` returns the snapshot and rank 0 (and only rank 0) has
performed the metadata write; `done` is a non-blocking read of the `_done`
flag. -/
theorem complete_snapshot_failure_policy (rank : Nat)
    (ioWork arriveRes writeMeta departRes : Except String Unit) (path : String) :
    (pendingDone (complete_snapshot rank ioWork arriveRes writeMeta departRes) = true
      ∧ (complete_snapshot rank ioWork arriveRes writeMeta departRes).storageClosed = true)
    ∧ (∀ e, firstFailure rank ioWork arriveRes writeMeta departRes = some e →
        (complete_snapshot rank ioWork arriveRes writeMeta departRes).excInfo = some e
        ∧ (complete_snapshot rank ioWork arriveRes writeMeta departRes).loggedFailure = some e
        ∧ pendingWait (complete_snapshot rank ioWork arriveRes writeMeta departRes) path =
            Except.error
              ("Encountered exception while taking snapshot asynchronously:\n" ++ e))
    ∧ (firstFailure rank ioWork arriveRes writeMeta departRes = none →
        (complete_snapshot rank ioWork arriveRes writeMeta departRes).excInfo = none
        ∧ pendingWait (complete_snapshot rank ioWork arriveRes writeMeta departRes) path =
            Except.ok path
        ∧ ((complete_snapshot rank ioWork arriveRes writeMeta departRes).metadataWritten = true
            ↔ rank = 0)) := by
  rcases ioWork with e1 | u1 <;> rcases arriveRes with e2 | u2 <;>
    rcases writeMeta with e3 | u3 <;> rcases departRes with e4 | u4 <;>
    by_cases h : rank = 0 <;>
    simp [complete_snapshot, firstFailure, pendingFailState, pendingOkState,
      pendingWait, pendingDone, h]

/-- C8 witness: rank 0's I/O work fails; the failure is captured and
re-raised by `wait` with the original cause. -/
theorem complete_snapshot_failure_policy_witness :
    firstFailure 0 (Except.error "io failed") (Except.ok ()) (Except.ok ()) (Except.ok ())
        = some "io failed"
    ∧ (complete_snapshot 0 (Except.error "io failed") (Except.ok ()) (Except.ok ())
        (Except.ok ())).excInfo = some "io failed" :=
  ⟨rfl,
    ((complete_snapshot_failure_policy 0 (Except.error "io failed") (Except.ok ())
        (Except.ok ()) (Except.ok ()) "p").2.1 "io failed" rfl).1⟩

/-- C6: for an app state with exactly one `RNGState`-typed value,
`_take_impl` (lines 328-373) captures the RNG state dict before invoking any
other stateful's `state_dict`, restores it via `load_state_dict` after all
other statefuls have been flattened, and therefore both the captured state
and the post-`take` ambient RNG state equal the initial RNG state —
whatever RNG perturbations the other statefuls' `state_dict` calls make. -/
theorem take_rng_state_unchanged {R : Type}
    (app_state : List (String × TStateful R)) (rng : R)
    (h : (app_state.filter (fun kv => kv.2.isRNGState)).length = 1) :
    take_impl_rng app_state rng = Except.ok (some rng, rng) := by
  obtain ⟨⟨k, st⟩, hkv⟩ := List.length_eq_one.mp h
  simp [take_impl_rng, pop_rng_state, hkv, rngLoadStateDict]

/-- C6 witness: one RNG stateful plus one ordinary stateful that perturbs
the RNG; the RNG state after `take` equals the captured initial state. -/
theorem take_rng_state_unchanged_witness :
    (([(("rng", TStateful.rngState) : String × TStateful Nat),
        ("model", TStateful.ordinary (fun r => r + 17))].filter
          (fun kv => kv.2.isRNGState)).length = 1)
    ∧ take_impl_rng
        [(("rng", TStateful.rngState) : String × TStateful Nat),
         ("model", TStateful.ordinary (fun r => r + 17))] 5 =
        Except.ok (some 5, 5) :=
  ⟨rfl,
    take_rng_state_unchanged
      [("rng", TStateful.rngState), ("model", TStateful.ordinary (fun r => r + 17))]
      5 rfl⟩

/-- Helper for C7: if some requested path is missing from the
available-entries view, the request-collection loop aborts with the
`PathUnavailable` error for the first missing path. -/
theorem collectReadReqs_missing (key : String) (rank : Nat)
    (available : List (String × Entry)) (paths : List String)
    (h : ∃ p ∈ paths, available.lookup p = none) :
    ∃ p ∈ paths, available.lookup p = none ∧
      collectReadReqs key rank available paths =
        Except.error
          (LoadError.pathUnavailable key p (pathUnavailableMessage key p rank)) := by
  induction paths with
  | nil => simp at h
  | cons q rest ih =>
    cases hq : available.lookup q with
    | none =>
        exact ⟨q, List.mem_cons_self q rest, hq, by simp [collectReadReqs, hq]⟩
    | some e =>
        have h' : ∃ p ∈ rest, available.lookup p = none := by
          obtain ⟨p, hp, hpn⟩ := h
          rcases List.mem_cons.mp hp with rfl | hmem
          · rw [hq] at hpn; cases hpn
          · exact ⟨p, hmem, hpn⟩
        obtain ⟨p, hp, hpn, hc⟩ := ih h'
        exact ⟨p, List.mem_cons_of_mem q hp, hpn, by simp [collectReadReqs, hq, hc]⟩

/-- C7: if any flattened path requested by a stateful is absent from the
restoring rank's available-entries view, `_load_stateful` raises the
`RuntimeError` of lines 708-725 — whose message carries both guidance texts,
distinguishing a never-persisted entry from an entry persisted per-rank
under a changed world size and suggesting replication hints or coercion —
and the restore-side world is untouched: no read request is executed against
storage and the stateful's `load_state_dict` is never called. -/
theorem load_stateful_missing_path (rank : Nat) (stateful_key : String)
    (flattenedPaths : List String) (available : List (String × Entry))
    (w : RestoreWorld)
    (h : ∃ p ∈ flattenedPaths, available.lookup p = none) :
    (load_stateful rank stateful_key flattenedPaths available w).1 = w
    ∧ ∃ p ∈ flattenedPaths, available.lookup p = none ∧
        (load_stateful rank stateful_key flattenedPaths available w).2 =
          some (LoadError.pathUnavailable stateful_key p
            ("When restoring from the snapshot, stateful object " ++ stateful_key ++
              " requested path " ++ p ++ " which was not available to rank " ++
              toString rank ++ ".\n" ++ guidanceNeverPersisted ++ "\n" ++
              guidanceWorldSizeChanged)) := by
  obtain ⟨p, hp, hpn, hc⟩ :=
    collectReadReqs_missing stateful_key rank available flattenedPaths h
  refine ⟨by simp [load_stateful, hc], p, hp, hpn, ?_⟩
  simp [load_stateful, hc, pathUnavailableMessage]

/-- C7 witness: a stateful requests a path absent from the available-entries
view; the error is raised and the world is untouched. -/
theorem load_stateful_missing_path_witness :
    (∃ p ∈ ["model/weight"],
      ([(("model/bias" : String), Entry.tensor false)].lookup p) = none)
    ∧ (load_stateful 2 "model" ["model/weight"]
        [("model/bias", Entry.tensor false)]
        { readsExecuted := [], loadedStatefuls := [] }).1 =
      { readsExecuted := [], loadedStatefuls := [] } :=
  ⟨⟨"model/weight", by simp, rfl⟩,
    (load_stateful_missing_path 2 "model" ["model/weight"]
      [("model/bias", Entry.tensor false)]
      { readsExecuted := [], loadedStatefuls := [] }
      ⟨"model/weight", by simp, rfl⟩).1⟩

/-- Invariant of the commit protocol: program-counter progress implies the
corresponding effects, a rank arrives only after completing its writes, a
rank passes the barrier only once every rank has arrived, and metadata
writes are performed by rank 0 after every rank arrived. -/
def CommitInv (N : Nat) (s : CommitState) : Prop :=
  (∀ r, 1 ≤ s.pc r → s.writesCompleted r = true)
  ∧ (∀ r, s.arrived r = true → s.writesCompleted r = true)
  ∧ (∀ r, 3 ≤ s.pc r → ∀ q, q < N → s.arrived q = true)
  ∧ (∀ m ∈ s.metaWrites, m = 0)
  ∧ (s.metaWrites ≠ [] → ∀ q, q < N → s.arrived q = true)

theorem commitInv_init (N : Nat) : CommitInv N commitInit := by
  refine ⟨fun r h => ?_, fun r h => ?_, fun r h => ?_, fun m h => ?_, fun h => ?_⟩
    <;> simp [commitInit] at *

theorem upd_self {α : Type} (f : Nat → α) (i : Nat) (v : α) : upd f i v i = v := by
  simp [upd]

theorem upd_other {α : Type} (f : Nat → α) (i : Nat) (v : α) (j : Nat)
    (h : j ≠ i) : upd f i v j = f j := by
  simp [upd, h]

theorem commitInv_step {N : Nat} {s t : CommitState} (hinv : CommitInv N s)
    (hstep : CommitStep N s t) : CommitInv N t := by
  obtain ⟨h1, h2, h3, h4, h5⟩ := hinv
  cases hstep with
  | completeWrites r hr hpc =>
    refine ⟨fun q hq => ?_, fun q hq => ?_, fun q hq => ?_, h4, h5⟩
    · by_cases hqr : q = r
      · subst hqr; simp [upd]
      · simp only [upd] at hq ⊢
        rw [if_neg hqr] at hq ⊢
        exact h1 q hq
    · by_cases hqr : q = r
      · subst hqr; simp [upd]
      · simp only [upd]
        rw [if_neg hqr]
        exact h2 q hq
    · by_cases hqr : q = r
      · subst hqr; simp [upd] at hq
      · simp only [upd] at hq
        rw [if_neg hqr] at hq
        exact h3 q hq
  | arrive r hr hpc =>
    refine ⟨fun q hq => ?_, fun q hq => ?_, fun q hq q' hq' => ?_,
      h4, fun hne q' hq' => ?_⟩
    · by_cases hqr : q = r
      · subst hqr; exact h1 q (by omega)
      · simp only [upd] at hq
        rw [if_neg hqr] at hq
        exact h1 q hq
    · by_cases hqr : q = r
      · subst hqr; exact h1 q (by omega)
      · simp only [upd] at hq
        rw [if_neg hqr] at hq
        exact h2 q hq
    · by_cases hq'r : q' = r
      · subst hq'r; simp [upd]
      · simp only [upd]
        rw [if_neg hq'r]
        by_cases hqr : q = r
        · subst hqr; simp [upd] at hq
        · simp only [upd] at hq
          rw [if_neg hqr] at hq
          exact h3 q hq q' hq'
    · by_cases hq'r : q' = r
      · subst hq'r; simp [upd]
      · simp only [upd]
        rw [if_neg hq'r]
        exact h5 hne q' hq'
  | passBarrier r hr hpc hall =>
    refine ⟨fun q hq => ?_, h2, fun q hq q' hq' => ?_, h4, h5⟩
    · by_cases hqr : q = r
      · subst hqr; exact h1 q (by omega)
      · simp only [upd] at hq
        rw [if_neg hqr] at hq
        exact h1 q hq
    · by_cases hqr : q = r
      · exact hall q' hq'
      · simp only [upd] at hq
        rw [if_neg hqr] at hq
        exact h3 q hq q' hq'
  | writeMetadata r hr hpc hzero =>
    refine ⟨fun q hq => ?_, h2, fun q hq q' hq' => ?_, fun m hm => ?_,
      fun _ q' hq' => ?_⟩
    · by_cases hqr : q = r
      · subst hqr; exact h1 q (by omega)
      · simp only [upd] at hq
        rw [if_neg hqr] at hq
        exact h1 q hq
    · by_cases hqr : q = r
      · exact h3 r (by omega) q' hq'
      · simp only [upd] at hq
        rw [if_neg hqr] at hq
        exact h3 q hq q' hq'
    · rcases List.mem_append.mp hm with hm | hm
      · exact h4 m hm
      · simp at hm; omega
    · exact h3 r (by omega) q' hq'

theorem commitInv_reachable {N : Nat} {s : CommitState}
    (h : CommitReachable N s) : CommitInv N s := by
  induction h with
  | init => exact commitInv_init N
  | step _ hstep ih => exact commitInv_step ih hstep

/-- C1: in every reachable execution of the commit protocol (the shared
skeleton of `Snapshot.take` lines 228-240 and
`PendingSnapshot._complete_snapshot` lines 1044-1054), every metadata write
is performed by rank 0 and only rank 0, and at that point every
participating rank has completed all of its data writes and arrived at the
barrier — so no reachable execution exposes metadata referencing writes
that have not completed. -/
theorem metadata_commit_point (N : Nat) (s : CommitState)
    (hreach : CommitReachable N s) (m : Nat) (hm : m ∈ s.metaWrites) :
    m = 0 ∧ ∀ r, r < N → s.arrived r = true ∧ s.writesCompleted r = true := by
  have hinv := commitInv_reachable hreach
  obtain ⟨h1, h2, h3, h4, h5⟩ := hinv
  refine ⟨h4 m hm, fun r hr => ?_⟩
  have harr := h5 (List.ne_nil_of_mem hm) r hr
  exact ⟨harr, h2 r harr⟩

/-- C1 witness: a concrete single-rank execution that completes its writes,
arrives, passes the barrier and writes the metadata; the theorem applies to
its terminal state. -/
theorem metadata_commit_point_witness :
    (0 : Nat) ∈ commitWitnessState.metaWrites
    ∧ ((0 : Nat) = 0 ∧ ∀ r, r < 1 →
        commitWitnessState.arrived r = true
        ∧ commitWitnessState.writesCompleted r = true) := by
  have hreach : CommitReachable 1 commitWitnessState := by
    have st1 := CommitReachable.step (CommitReachable.init (N := 1))
      (CommitStep.completeWrites commitInit 0 (by omega) rfl)
    have st2 := CommitReachable.step st1 (CommitStep.arrive _ 0 (by omega) rfl)
    have st3 := CommitReachable.step st2
      (CommitStep.passBarrier _ 0 (by omega) rfl (by
        intro q hq
        have hq0 : q = 0 := by omega
        subst hq0
        rfl))
    have st4 := CommitReachable.step st3
      (CommitStep.writeMetadata _ 0 (by omega) rfl rfl)
    exact st4
  have hm : (0 : Nat) ∈ commitWitnessState.metaWrites := by
    simp [commitWitnessState]
  exact ⟨hm, metadata_commit_point 1 commitWitnessState hreach 0 hm⟩

/-- Helper for C2: membership in a rank's candidate replicated paths. -/
theorem mem_local_replicated_paths {f : List (String × Bool)} {pats : List String}
    {p : String} :
    p ∈ local_replicated_paths f pats ↔
      (p, false) ∈ f ∧ pats.any (fun q => fnmatchB p q) = true := by
  simp only [local_replicated_paths, List.mem_map, List.mem_filter]
  constructor
  · rintro ⟨⟨a, b⟩, ⟨hmem, hcond⟩, rfl⟩
    simp only [Bool.and_eq_true, Bool.not_eq_true'] at hcond
    exact ⟨hcond.2 ▸ hmem, hcond.1⟩
  · rintro ⟨hmem, hany⟩
    exact ⟨(p, false), ⟨hmem, by simp [hany]⟩, rfl⟩

/-- Helper for C2: a rank with duplicate-free flattened keys contributes a
path at most once. -/
theorem count_local_le_one {f : List (String × Bool)} {pats : List String}
    (hnd : (f.map (·.1)).Nodup) (p : String) :
    (local_replicated_paths f pats).count p ≤ 1 := by
  have hsub : List.Sublist (local_replicated_paths f pats) (f.map (·.1)) :=
    List.Sublist.map _ (List.filter_sublist f)
  exact List.nodup_iff_count_le_one.mp (hsub.nodup hnd) p

theorem path_count_le {obj : List (List String)} {p : String}
    (hle : ∀ l ∈ obj, l.count p ≤ 1) : path_count obj p ≤ obj.length := by
  induction obj with
  | nil => simp [path_count]
  | cons g gs ih =>
    have h1 := hle g (List.mem_cons_self g gs)
    have h2 := ih (fun l hl => hle l (List.mem_cons_of_mem g hl))
    simp only [path_count, List.map_cons, List.sum_cons, List.length_cons]
    simp only [path_count] at h2
    omega

/-- Helper for C2: the `path_count[p] == world_size` test of line 660 holds
exactly when every rank contributed `p`, provided no rank contributes a
path twice. -/
theorem path_count_eq_length_iff {obj : List (List String)} {p : String}
    (hle : ∀ l ∈ obj, l.count p ≤ 1) :
    path_count obj p = obj.length ↔ ∀ l ∈ obj, p ∈ l := by
  induction obj with
  | nil => simp [path_count]
  | cons g gs ih =>
    have hg := hle g (List.mem_cons_self g gs)
    have hrest : ∀ l ∈ gs, l.count p ≤ 1 :=
      fun l hl => hle l (List.mem_cons_of_mem g hl)
    have hrle := path_count_le hrest
    have hiff := ih hrest
    simp only [path_count, List.map_cons, List.sum_cons, List.length_cons]
    simp only [path_count] at hiff hrle
    constructor
    · intro he
      have h1 : 1 ≤ g.count p := by omega
      have hpg : p ∈ g := by
        by_contra hnp
        rw [List.count_eq_zero_of_not_mem hnp] at h1
        omega
      intro l hl
      rcases List.mem_cons.mp hl with rfl | hl'
      · exact hpg
      · exact (hiff.mp (by omega)) l hl'
    · intro hall
      have hpg : p ∈ g := hall g (List.mem_cons_self g gs)
      have h1 : 1 ≤ g.count p := by
        by_contra hlt
        have hz : g.count p = 0 := by omega
        exact (List.count_eq_zero.mp hz) hpg
      have h2 : path_count gs p = gs.length :=
        hiff.mpr (fun l hl => hall l (List.mem_cons_of_mem g hl))
      simp only [path_count] at h2
      omega

/-- C2: a flattened path is classified replicated by
`_calculate_replicated_entries`, run with the patterns produced by
`_coalesce_path_and_replicated` (DDP inference per rank followed by global
set intersection), exactly when it matches one of those effective patterns
and is present — with a non-`ShardedTensor` value — on every participating
rank.  All other non-sharded paths are left out (and hence default to
per-rank treatment, snapshot.py lines 121-127). -/
theorem replicated_classification (world : List TakeRankInput) (hw : world ≠ [])
    (hnd : ∀ r ∈ world, (r.flattened.map (·.1)).Nodup) (p : String) :
    p ∈ calculate_replicated_entries (world.map (·.flattened))
          (effective_patterns world) ↔
      ((∃ pat ∈ effective_patterns world, fnmatchB p pat = true)
        ∧ ∀ r ∈ world, (p, false) ∈ r.flattened) := by
  obtain ⟨r0, rest, rfl⟩ := List.exists_cons_of_ne_nil hw
  simp only [calculate_replicated_entries, List.map_map]
  have hle : ∀ l ∈ ((r0 :: rest).map
      (fun r => local_replicated_paths r.flattened (effective_patterns (r0 :: rest)))),
      l.count p ≤ 1 := by
    intro l hl
    obtain ⟨r, hr, rfl⟩ := List.mem_map.mp hl
    exact count_local_le_one (hnd r hr) p
  constructor
  · intro hmem
    rw [List.mem_filter] at hmem
    obtain ⟨hp0, hcnt⟩ := hmem
    rw [decide_eq_true_iff] at hcnt
    have hcnt' : path_count ((r0 :: rest).map
        (fun r => local_replicated_paths r.flattened (effective_patterns (r0 :: rest)))) p =
        ((r0 :: rest).map
          (fun r => local_replicated_paths r.flattened (effective_patterns (r0 :: rest)))).length := by
      simpa [List.length_map] using hcnt
    have hall := (path_count_eq_length_iff hle).mp hcnt'
    have hloc : ∀ r ∈ r0 :: rest,
        p ∈ local_replicated_paths r.flattened (effective_patterns (r0 :: rest)) :=
      fun r hr => hall _ (List.mem_map_of_mem _ hr)
    have hr0 := mem_local_replicated_paths.mp (hloc r0 (List.mem_cons_self r0 rest))
    obtain ⟨pat, hpat, hfn⟩ := List.any_eq_true.mp hr0.2
    exact ⟨⟨pat, hpat, hfn⟩,
      fun r hr => (mem_local_replicated_paths.mp (hloc r hr)).1⟩
  · rintro ⟨⟨pat, hpat, hfn⟩, hpres⟩
    have hany : (effective_patterns (r0 :: rest)).any (fun q => fnmatchB p q) = true :=
      List.any_eq_true.mpr ⟨pat, hpat, hfn⟩
    have hloc : ∀ r ∈ r0 :: rest,
        p ∈ local_replicated_paths r.flattened (effective_patterns (r0 :: rest)) :=
      fun r hr => mem_local_replicated_paths.mpr ⟨hpres r hr, hany⟩
    rw [List.mem_filter]
    refine ⟨hloc r0 (List.mem_cons_self r0 rest), ?_⟩
    rw [decide_eq_true_iff]
    have : path_count ((r0 :: rest).map
        (fun r => local_replicated_paths r.flattened (effective_patterns (r0 :: rest)))) p =
        ((r0 :: rest).map
          (fun r => local_replicated_paths r.flattened (effective_patterns (r0 :: rest)))).length :=
      (path_count_eq_length_iff hle).mpr (by
        intro l hl
        obtain ⟨r, hr, rfl⟩ := List.mem_map.mp hl
        exact hloc r hr)
    simpa [List.length_map] using this

/-- C2 witness: two ranks, a DDP-free app state, a shared pattern; a path
present unsharded on both ranks is classified replicated. -/
theorem replicated_classification_witness :
    (c2WitnessWorld ≠ [])
    ∧ ("m/w" ∈ calculate_replicated_entries (c2WitnessWorld.map (·.flattened))
          (effective_patterns c2WitnessWorld) ↔
        ((∃ pat ∈ effective_patterns c2WitnessWorld, fnmatchB "m/w" pat = true)
          ∧ ∀ r ∈ c2WitnessWorld, ("m/w", false) ∈ r.flattened)) :=
  ⟨List.cons_ne_nil _ _,
    replicated_classification c2WitnessWorld (List.cons_ne_nil _ _)
      (by decide) "m/w"⟩

/-! ### List helper lemmas for the partitioner proofs -/

theorem list_getD_cons_succ {α : Type} (x : α) (xs : List α) (n : Nat) (d : α) :
    (x :: xs).getD (n + 1) d = xs.getD n d := rfl

theorem list_getD_set_self {α : Type} (l : List α) (i : Nat) (v d : α)
    (h : i < l.length) : (l.set i v).getD i d = v := by
  induction l generalizing i with
  | nil => simp at h
  | cons x xs ih =>
    cases i with
    | zero => rfl
    | succ n => exact ih n (by simpa using h)

theorem list_getD_set_ne {α : Type} (l : List α) (i j : Nat) (v d : α)
    (h : j ≠ i) : (l.set i v).getD j d = l.getD j d := by
  induction l generalizing i j with
  | nil => rfl
  | cons x xs ih =>
    cases i with
    | zero =>
      cases j with
      | zero => exact absurd rfl h
      | succ m => rfl
    | succ n =>
      cases j with
      | zero => rfl
      | succ m => exact ih n m (by omega)

theorem list_getD_mem {α : Type} (l : List α) (n : Nat) (d : α)
    (h : n < l.length) : l.getD n d ∈ l := by
  induction l generalizing n with
  | nil => simp at h
  | cons x xs ih =>
    cases n with
    | zero => exact List.mem_cons_self x xs
    | succ m => exact List.mem_cons_of_mem x (ih m (by simpa using h))

theorem mem_iff_getD {α : Type} {l : List α} {y : α} (d : α) (hy : y ∈ l) :
    ∃ n, n < l.length ∧ l.getD n d = y := by
  induction l with
  | nil => simp at hy
  | cons x xs ih =>
    rcases List.mem_cons.mp hy with rfl | hy'
    · exact ⟨0, by simp, rfl⟩
    · obtain ⟨n, hn, hg⟩ := ih hy'
      exact ⟨n + 1, by simpa using hn, hg⟩

theorem list_getD_replicate (n i : Nat) :
    (List.replicate n (0 : Nat)).getD i 0 = 0 := by
  induction n generalizing i with
  | zero => rfl
  | succ m ih =>
    cases i with
    | zero => rfl
    | succ j => exact ih j

/-! ### argmin lemmas: `np.argmin` returns the first index of the minimum -/

theorem argminIdx_lt (l : List Nat) (h : l ≠ []) : argminIdx l < l.length := by
  induction l with
  | nil => exact absurd rfl h
  | cons x xs ih =>
    by_cases hall : xs.all (fun y => decide (x ≤ y)) = true
    · simp [argminIdx, hall]
    · have hx : argminIdx (x :: xs) = 1 + argminIdx xs := by
        simp only [argminIdx, if_neg hall]
      have hne : xs ≠ [] := by rintro rfl; simp at hall
      have := ih hne
      rw [hx]
      simp only [List.length_cons]
      omega

theorem not_all_le_exists {x : Nat} {xs : List Nat}
    (hall : ¬ xs.all (fun y => decide (x ≤ y)) = true) :
    ∃ y ∈ xs, y < x := by
  by_contra hno
  push_neg at hno
  exact hall (List.all_eq_true.mpr (fun y hy => decide_eq_true (hno y hy)))

theorem argminIdx_le (l : List Nat) (j : Nat) (hj : j < l.length) :
    l.getD (argminIdx l) 0 ≤ l.getD j 0 := by
  induction l generalizing j with
  | nil => simp at hj
  | cons x xs ih =>
    by_cases hall : xs.all (fun y => decide (x ≤ y)) = true
    · simp only [argminIdx, if_pos hall]
      cases j with
      | zero => exact le_refl _
      | succ m =>
        have hm : m < xs.length := by simpa using hj
        have := List.all_eq_true.mp hall (xs.getD m 0) (list_getD_mem xs m 0 hm)
        simpa [list_getD_cons_succ] using of_decide_eq_true this
    · simp only [argminIdx, if_neg hall]
      have h1a : 1 + argminIdx xs = argminIdx xs + 1 := Nat.add_comm _ _
      rw [h1a, list_getD_cons_succ]
      cases j with
      | zero =>
        obtain ⟨y, hy, hxy⟩ := not_all_le_exists hall
        obtain ⟨m, hm, hgd⟩ := mem_iff_getD 0 hy
        have hle := ih m hm
        simp only [List.getD_cons_zero]
        omega
      | succ m =>
        rw [list_getD_cons_succ]
        exact ih m (by simpa using hj)

theorem argminIdx_first (l : List Nat) (j : Nat) (hj : j < argminIdx l) :
    l.getD (argminIdx l) 0 < l.getD j 0 := by
  induction l generalizing j with
  | nil => simp [argminIdx] at hj
  | cons x xs ih =>
    by_cases hall : xs.all (fun y => decide (x ≤ y)) = true
    · have hx : argminIdx (x :: xs) = 0 := by
        simp only [argminIdx, if_pos hall]
      rw [hx] at hj
      exact absurd hj (Nat.not_lt_zero j)
    · simp only [argminIdx, if_neg hall] at hj ⊢
      have h1a : 1 + argminIdx xs = argminIdx xs + 1 := Nat.add_comm _ _
      rw [h1a, list_getD_cons_succ]
      cases j with
      | zero =>
        obtain ⟨y, hy, hxy⟩ := not_all_le_exists hall
        obtain ⟨m, hm, hgd⟩ := mem_iff_getD 0 hy
        have hle := argminIdx_le xs m hm
        simp only [List.getD_cons_zero]
        omega
      | succ m =>
        rw [list_getD_cons_succ]
        exact ih m (by omega)

theorem list_set_of_length_le {α : Type} (l : List α) (i : Nat) (v : α)
    (h : l.length ≤ i) : l.set i v = l := by
  induction l generalizing i with
  | nil => rfl
  | cons x xs ih =>
    cases i with
    | zero => simp at h
    | succ n => simpa using ih n (by simpa using h)

theorem list_getD_replicate_any {α : Type} (a d : α) (n i : Nat) (h : i < n) :
    (List.replicate n a).getD i d = a := by
  induction n generalizing i with
  | zero => simp at h
  | succ m ih =>
    cases i with
    | zero => rfl
    | succ j => exact ih j (by omega)

/-! ### Partitioner lemmas -/

theorem sizesOnly_length (items : List (String × Chunk × Nat))
    (sizes : List Nat) : (sizesOnly items sizes).length = sizes.length := by
  induction items generalizing sizes with
  | nil => rfl
  | cons it rest ih =>
    simp only [sizesOnly]
    rw [ih]
    exact List.length_set _ _ _

theorem greedy_length (items : List (String × Chunk × Nat))
    (prs : List PartitionResult) (sizes : List Nat) :
    (greedyAssignChunks items prs sizes).1.length = prs.length := by
  induction items generalizing prs sizes with
  | nil => rfl
  | cons it rest ih =>
    simp only [greedyAssignChunks]
    rw [ih]
    exact List.length_set _ _ _

theorem roundRobin_length (N : Nat) (l : List String) (i : Nat)
    (prs : List PartitionResult) :
    (roundRobinAssign N i l prs).length = prs.length := by
  induction l generalizing i prs with
  | nil => rfl
  | cons p rest ih =>
    simp only [roundRobinAssign]
    rw [ih]
    exact List.length_set _ _ _

theorem assignSeq_getD (items : List (String × Chunk × Nat)) (sizes : List Nat)
    (k : Nat) (hk : k < items.length) :
    (assignSeq items sizes).getD k defaultTriple =
      (items.getD k defaultTriple.1,
        argminIdx (sizesOnly (items.take k) sizes)) := by
  induction items generalizing sizes k with
  | nil => simp at hk
  | cons it rest ih =>
    cases k with
    | zero => rfl
    | succ n =>
      have hn : n < rest.length := by simpa using hk
      simp only [assignSeq, list_getD_cons_succ, List.take_succ_cons, sizesOnly]
      exact ih _ n hn

theorem assignSeq_mem (items : List (String × Chunk × Nat)) (sizes : List Nat)
    (x : (String × Chunk × Nat) × Nat) (hx : x ∈ assignSeq items sizes) :
    x.1 ∈ items := by
  induction items generalizing sizes with
  | nil => simp [assignSeq] at hx
  | cons it rest ih =>
    simp only [assignSeq, List.mem_cons] at hx
    rcases hx with rfl | hx'
    · exact List.mem_cons_self _ _
    · exact List.mem_cons_of_mem _ (ih _ hx')

theorem applyAssigned_cons (pr : PartitionResult)
    (x : (String × Chunk × Nat) × Nat) (xs : List ((String × Chunk × Nat) × Nat)) :
    applyAssigned pr (x :: xs) =
      applyAssigned (addChunkToResult pr.1 x.1.1 x.1.2.1, pr.2) xs := rfl

theorem applyAssigned_snd (xs : List ((String × Chunk × Nat) × Nat)) :
    ∀ pr : PartitionResult, (applyAssigned pr xs).2 = pr.2 := by
  induction xs with
  | nil => intro pr; rfl
  | cons x rest ih =>
    intro pr
    rw [applyAssigned_cons, ih]

/-- The greedy loop's per-rank slot content is the replay of the assignment
sequence filtered to that rank. -/
theorem greedy_fst_getD (items : List (String × Chunk × Nat)) :
    ∀ (prs : List PartitionResult) (sizes : List Nat),
    prs.length = sizes.length → ∀ r, r < prs.length →
    ((greedyAssignChunks items prs sizes).1).getD r ([], []) =
      applyAssigned (prs.getD r ([], []))
        ((assignSeq items sizes).filter (fun x => decide (x.2 = r))) := by
  induction items with
  | nil =>
    intro prs sizes hlen r hr
    rfl
  | cons it rest ih =>
    intro prs sizes hlen r hr
    have hne : sizes ≠ [] := by
      intro hemp
      rw [hemp] at hlen
      simp at hlen
      rw [hlen] at hr
      simp at hr
    have hm : argminIdx sizes < sizes.length := argminIdx_lt sizes hne
    have hm' : argminIdx sizes < prs.length := by omega
    simp only [greedyAssignChunks, assignSeq, List.filter_cons]
    by_cases hmr : argminIdx sizes = r
    · rw [if_pos (by simpa using hmr)]
      rw [ih _ _ (by simp [hlen]) r (by simpa using hr)]
      rw [applyAssigned_cons]
      congr 1
      subst hmr
      rw [list_getD_set_self _ _ _ _ hm']
    · rw [if_neg (by simpa using hmr)]
      rw [ih _ _ (by simp [hlen]) r (by simpa using hr)]
      congr 1
      rw [list_getD_set_ne _ _ _ _ _ (fun h => hmr h.symm)]

theorem roundRobin_getD_fst (N : Nat) (l : List String) :
    ∀ (i : Nat) (prs : List PartitionResult) (r : Nat),
    ((roundRobinAssign N i l prs).getD r ([], [])).1 =
      (prs.getD r ([], [])).1 := by
  induction l with
  | nil => intro i prs r; rfl
  | cons p rest ih =>
    intro i prs r
    simp only [roundRobinAssign]
    rw [ih]
    by_cases hr : r = i % N
    · by_cases hlt : i % N < prs.length
      · rw [hr, list_getD_set_self _ _ _ _ hlt]
      · rw [list_set_of_length_le _ _ _ (by omega)]
    · rw [list_getD_set_ne _ _ _ _ _ hr]

theorem roundRobin_getD_snd (N : Nat) (hN : 0 < N) (l : List String) :
    ∀ (i : Nat) (prs : List PartitionResult) (r : Nat), r < N →
    prs.length = N →
    ((roundRobinAssign N i l prs).getD r ([], [])).2 =
      (prs.getD r ([], [])).2 ++
        ((List.enumFrom i l).filter (fun ip => decide (ip.1 % N = r))).map (·.2) := by
  induction l with
  | nil =>
    intro i prs r hr hlen
    simp [roundRobinAssign, List.enumFrom]
  | cons p rest ih =>
    intro i prs r hr hlen
    have hmN : i % N < N := Nat.mod_lt i hN
    simp only [roundRobinAssign, List.enumFrom, List.filter_cons]
    by_cases him : i % N = r
    · rw [if_pos (by simpa using him)]
      rw [ih (i + 1) _ r hr (by simp [hlen])]
      rw [him, list_getD_set_self _ _ _ _ (by omega)]
      simp
    · rw [if_neg (by simpa using him)]
      rw [ih (i + 1) _ r hr (by simp [hlen])]
      rw [list_getD_set_ne _ _ _ _ _ (fun h => him h.symm)]

theorem chunkMapBytes_cons (e : String × List Chunk)
    (m : List (String × List Chunk)) :
    chunkMapBytes (e :: m) = (e.2.map chunkByteSize).sum + chunkMapBytes m := by
  simp [chunkMapBytes]

theorem addChunk_keys_nodup (m : List (String × List Chunk)) (p : String)
    (c : Chunk) (h : (m.map (·.1)).Nodup) :
    ((addChunkToResult m p c).map (·.1)).Nodup := by
  by_cases hany : m.any (fun e => decide (e.1 = p)) = true
  · rw [addChunkToResult, if_pos hany, List.map_map]
    have : ((·.1) ∘ fun e : String × List Chunk =>
        if e.1 = p then (e.1, e.2 ++ [c]) else e) = (·.1) := by
      funext e
      by_cases hep : e.1 = p <;> simp [hep]
    rw [this]
    exact h
  · rw [addChunkToResult, if_neg hany]
    have hnp : ∀ q ∈ m.map (·.1), q ≠ p := by
      intro q hq
      obtain ⟨e, he, rfl⟩ := List.mem_map.mp hq
      intro hqp
      exact hany (List.any_eq_true.mpr ⟨e, he, decide_eq_true hqp⟩)
    rw [List.map_append]
    simp only [List.map_cons, List.map_nil]
    rw [List.nodup_append]
    exact ⟨h, List.nodup_singleton p, by
      intro q hq hq1
      simp only [List.mem_singleton] at hq1
      exact hnp q hq hq1⟩

theorem addChunk_bytes (m : List (String × List Chunk)) (p : String) (c : Chunk)
    (h : (m.map (·.1)).Nodup) :
    chunkMapBytes (addChunkToResult m p c) = chunkMapBytes m + chunkByteSize c := by
  by_cases hany : m.any (fun e => decide (e.1 = p)) = true
  · rw [addChunkToResult, if_pos hany]
    induction m with
    | nil => simp at hany
    | cons e rest ih =>
      by_cases hep : e.1 = p
      · have hrest : ∀ e' ∈ rest, e'.1 ≠ p := by
          intro e' he' hp'
          have : e.1 ∈ rest.map (·.1) := by
            rw [hep, ← hp']
            exact List.mem_map_of_mem _ he'
          exact (List.nodup_cons.mp h).1 this
        have hrw : rest.map (fun e' : String × List Chunk =>
            if e'.1 = p then (e'.1, e'.2 ++ [c]) else e') = rest := by
          have := List.map_congr_left (l := rest)
            (f := fun e' : String × List Chunk =>
              if e'.1 = p then (e'.1, e'.2 ++ [c]) else e')
            (g := id) (fun e' he' => by simp [hrest e' he'])
          simpa using this
        simp only [List.map_cons, if_pos hep, hrw]
        rw [chunkMapBytes_cons, chunkMapBytes_cons]
        simp only [List.map_append, List.sum_append]
        simp [chunkByteSize]
        omega
      · have hanyr : rest.any (fun e' => decide (e'.1 = p)) = true := by
          rcases List.any_eq_true.mp hany with ⟨e', he', hde⟩
          rcases List.mem_cons.mp he' with rfl | he''
          · exact absurd (of_decide_eq_true hde) hep
          · exact List.any_eq_true.mpr ⟨e', he'', hde⟩
        have hndr : (rest.map (·.1)).Nodup := (List.nodup_cons.mp h).2
        simp only [List.map_cons, if_neg hep]
        rw [chunkMapBytes_cons, chunkMapBytes_cons, ih hndr hanyr]
        omega
  · rw [addChunkToResult, if_neg hany]
    simp [chunkMapBytes, List.map_append]

theorem applyAssigned_bytes (xs : List ((String × Chunk × Nat) × Nat)) :
    ∀ pr : PartitionResult, (pr.1.map (·.1)).Nodup →
    chunkMapBytes (applyAssigned pr xs).1 =
      chunkMapBytes pr.1 + (xs.map (fun x => chunkByteSize x.1.2.1)).sum := by
  induction xs with
  | nil => intro pr _; simp [applyAssigned]
  | cons x rest ih =>
    intro pr hnd
    rw [applyAssigned_cons]
    rw [ih _ (addChunk_keys_nodup _ _ _ hnd)]
    simp only [List.map_cons, List.sum_cons]
    rw [addChunk_bytes _ _ _ hnd]
    omega

theorem sizesOnly_getD (items : List (String × Chunk × Nat)) :
    ∀ (sizes : List Nat) (r : Nat), r < sizes.length →
    (sizesOnly items sizes).getD r 0 =
      sizes.getD r 0 +
        (((assignSeq items sizes).filter (fun x => decide (x.2 = r))).map
          (fun x => x.1.2.2)).sum := by
  induction items with
  | nil =>
    intro sizes r hr
    simp [sizesOnly, assignSeq]
  | cons it rest ih =>
    intro sizes r hr
    have hne : sizes ≠ [] := by
      intro hemp
      rw [hemp] at hr
      simp at hr
    have hm : argminIdx sizes < sizes.length := argminIdx_lt sizes hne
    simp only [sizesOnly, assignSeq, List.filter_cons]
    by_cases hmr : argminIdx sizes = r
    · rw [if_pos (by simpa using hmr)]
      rw [ih _ r (by simp [hr])]
      subst hmr
      rw [list_getD_set_self _ _ _ _ hm]
      simp only [List.map_cons, List.sum_cons]
      omega
    · rw [if_neg (by simpa using hmr)]
      rw [ih _ r (by simp [hr])]
      rw [list_getD_set_ne _ _ _ _ _ (fun h => hmr h.symm)]

theorem sizesOnly_bound (items : List (String × Chunk × Nat)) (C : Nat)
    (hC : ∀ it ∈ items, it.2.2 ≤ C) :
    ∀ sizes : List Nat,
    (∀ a b, a < sizes.length → b < sizes.length →
      sizes.getD a 0 ≤ sizes.getD b 0 + C) →
    ∀ a b, a < sizes.length → b < sizes.length →
      (sizesOnly items sizes).getD a 0 ≤ (sizesOnly items sizes).getD b 0 + C := by
  induction items with
  | nil => intro sizes hinv a b ha hb; exact hinv a b ha hb
  | cons it rest ih =>
    intro sizes hinv a b ha hb
    have hne : sizes ≠ [] := by
      intro hemp; rw [hemp] at ha; simp at ha
    have hm : argminIdx sizes < sizes.length := argminIdx_lt sizes hne
    have hitC : it.2.2 ≤ C := hC it (List.mem_cons_self _ _)
    have hCrest : ∀ x ∈ rest, x.2.2 ≤ C :=
      fun x hx => hC x (List.mem_cons_of_mem _ hx)
    have hlen' : (sizes.set (argminIdx sizes)
        (sizes.getD (argminIdx sizes) 0 + it.2.2)).length = sizes.length :=
      List.length_set _ _ _
    simp only [sizesOnly]
    apply ih hCrest _ _ a b (by omega) (by omega)
    intro x y hx hy
    rw [hlen'] at hx hy
    by_cases hxm : x = argminIdx sizes
    · subst hxm
      rw [list_getD_set_self _ _ _ _ hm]
      by_cases hym : y = argminIdx sizes
      · subst hym
        rw [list_getD_set_self _ _ _ _ hm]
        omega
      · rw [list_getD_set_ne _ _ _ _ _ hym]
        have := argminIdx_le sizes y hy
        omega
    · rw [list_getD_set_ne _ _ _ _ _ hxm]
      by_cases hym : y = argminIdx sizes
      · subst hym
        rw [list_getD_set_self _ _ _ _ hm]
        have := hinv x (argminIdx sizes) hx hm
        omega
      · rw [list_getD_set_ne _ _ _ _ _ hym]
        exact hinv x y hx hy

theorem le_foldr_max (l : List Nat) (a : Nat) (ha : a ∈ l) :
    a ≤ l.foldr max 0 := by
  induction l with
  | nil => simp at ha
  | cons x xs ih =>
    rcases List.mem_cons.mp ha with rfl | ha'
    · exact Nat.le_max_left _ _
    · exact le_trans (ih ha') (Nat.le_max_right _ _)

theorem collectChunked_snd (replicated_paths : List String)
    (chunking_instructions : ChunkingInstructions) :
    ∀ it ∈ collectChunkedPaths replicated_paths chunking_instructions,
      it.2.2 = chunkByteSize it.2.1 := by
  intro it hit
  simp only [collectChunkedPaths, List.mem_flatMap] at hit
  obtain ⟨p, _, hmem⟩ := hit
  cases hlk : chunking_instructions.lookup p with
  | none => rw [hlk] at hmem; simp at hmem
  | some chunks =>
    rw [hlk] at hmem
    obtain ⟨c, _, rfl⟩ := List.mem_map.mp hmem
    rfl

/-- C3: `_partition_replicated_paths` (lines 860-899) processes the chunks
of the chunked replicated entries in descending byte-size order (byte size =
product of the chunk's dimension sizes times the element size of its dtype,
line 880); each chunk, in that order, goes to the rank whose running
assigned-byte total is currently smallest, ties broken by the lowest rank
index (`np.argmin` returns the first index of the minimum); each rank's
chunk map is exactly the replay of that assignment; and the non-chunked
replicated paths are assigned round-robin by their index modulo the world
size, ignoring their sizes.  The embedding is a pure function, so the
assignment is a deterministic function of its inputs. -/
theorem partition_replicated_paths_spec (replicated_paths : List String)
    (chunking_instructions : ChunkingInstructions) (N : Nat) (hN : 0 < N) :
    (sortedChunkedPaths replicated_paths chunking_instructions).Perm
        (collectChunkedPaths replicated_paths chunking_instructions)
    ∧ List.Pairwise chunkSizeDescR
        (sortedChunkedPaths replicated_paths chunking_instructions)
    ∧ (∀ it ∈ collectChunkedPaths replicated_paths chunking_instructions,
        it.2.2 = chunkByteSize it.2.1)
    ∧ (∀ k, k < (sortedChunkedPaths replicated_paths chunking_instructions).length →
        ((partitionAssignment replicated_paths chunking_instructions N).getD k
            defaultTriple).1 =
          (sortedChunkedPaths replicated_paths chunking_instructions).getD k
            defaultTriple.1
        ∧ ((partitionAssignment replicated_paths chunking_instructions N).getD k
            defaultTriple).2 < N
        ∧ (∀ j, j < N →
            (partitionLoads replicated_paths chunking_instructions N k).getD
                ((partitionAssignment replicated_paths chunking_instructions N).getD k
                  defaultTriple).2 0
              ≤ (partitionLoads replicated_paths chunking_instructions N k).getD j 0)
        ∧ (∀ j, j < ((partitionAssignment replicated_paths chunking_instructions N).getD k
              defaultTriple).2 →
            (partitionLoads replicated_paths chunking_instructions N k).getD
                ((partitionAssignment replicated_paths chunking_instructions N).getD k
                  defaultTriple).2 0
              < (partitionLoads replicated_paths chunking_instructions N k).getD j 0))
    ∧ (∀ r, r < N →
        ((partition_replicated_paths replicated_paths chunking_instructions N).getD r
            ([], [])).1 =
          (applyAssigned ([], [])
            ((partitionAssignment replicated_paths chunking_instructions N).filter
              (fun x => decide (x.2 = r)))).1)
    ∧ (∀ r, r < N →
        ((partition_replicated_paths replicated_paths chunking_instructions N).getD r
            ([], [])).2 =
          (((collectNonchunkedPaths replicated_paths chunking_instructions).enum).filter
            (fun ip => decide (ip.1 % N = r))).map (·.2)) := by
  refine ⟨List.perm_insertionSort _ _, List.sorted_insertionSort _ _,
    collectChunked_snd _ _, ?_, ?_, ?_⟩
  · intro k hk
    have hget := assignSeq_getD
      (sortedChunkedPaths replicated_paths chunking_instructions)
      (List.replicate N 0) k hk
    have hlenS : (partitionLoads replicated_paths chunking_instructions N k).length
        = N := by
      simp only [partitionLoads]
      rw [sizesOnly_length, List.length_replicate]
    have hne : partitionLoads replicated_paths chunking_instructions N k ≠ [] := by
      intro hemp
      rw [hemp] at hlenS
      simp at hlenS
      omega
    have hadd : ((partitionAssignment replicated_paths chunking_instructions N).getD k
        defaultTriple).2 =
        argminIdx (partitionLoads replicated_paths chunking_instructions N k) := by
      simp only [partitionAssignment, partitionLoads]
      rw [hget]
    refine ⟨?_, ?_, ?_, ?_⟩
    · simp only [partitionAssignment]
      rw [hget]
    · rw [hadd]
      have := argminIdx_lt _ hne
      omega
    · intro j hj
      rw [hadd]
      exact argminIdx_le _ j (by omega)
    · intro j hj
      rw [hadd] at hj ⊢
      exact argminIdx_first _ j hj
  · intro r hr
    simp only [partition_replicated_paths]
    rw [roundRobin_getD_fst]
    rw [greedy_fst_getD _ _ _ (by simp) r (by simp [hr])]
    rw [list_getD_replicate_any _ _ N r hr]
    rfl
  · intro r hr
    simp only [partition_replicated_paths]
    rw [roundRobin_getD_snd N hN _ 0 _ r hr
      (by rw [greedy_length, List.length_replicate])]
    have h2 : ((greedyAssignChunks
        (sortedChunkedPaths replicated_paths chunking_instructions)
        (List.replicate N (([], []) : PartitionResult))
        (List.replicate N 0)).1.getD r ([], [])).2 = [] := by
      rw [greedy_fst_getD _ _ _ (by simp) r (by simp [hr])]
      rw [applyAssigned_snd]
      rw [list_getD_replicate_any _ _ N r hr]
    simp only [sortedChunkedPaths] at h2
    rw [h2]
    simp [List.enum]

/-- C3 witness: the partitioner theorem applied to a concrete three-path,
two-rank instance. -/
theorem partition_replicated_paths_spec_witness :
    0 < 2 ∧ (sortedChunkedPaths ["a", "b", "c"] partitionWitnessCI).Perm
        (collectChunkedPaths ["a", "b", "c"] partitionWitnessCI) :=
  ⟨by decide,
    (partition_replicated_paths_spec ["a", "b", "c"] partitionWitnessCI 2
      (by decide)).1⟩

/-- C4 counterexample: with no chunked entries and a single non-chunked
replicated path of 100 bytes on two ranks, rank 0 is assigned 100 bytes and
rank 1 zero bytes, while the largest single chunk has 0 bytes — the claimed
pairwise bound, which counts non-chunked path bytes, fails at this input. -/
theorem partition_balance_counterexample :
    ¬ (resultTotalBytes (fun _ => 100)
          ((partition_replicated_paths ["a"] [] 2).getD 0 ([], [])) ≤
        resultTotalBytes (fun _ => 100)
          ((partition_replicated_paths ["a"] [] 2).getD 1 ([], [])) +
        largestChunkBytes ["a"] []) := by decide

/-- C4 (amended): the per-rank totals of assigned chunk bytes — the bytes
the greedy loop of lines 888-894 balances; the non-chunked paths of lines
897-898 are assigned round-robin with their sizes ignored — differ pairwise
by no more than the byte size of the largest single chunk. -/
theorem partition_chunk_balance (replicated_paths : List String)
    (chunking_instructions : ChunkingInstructions) (N : Nat) (_hN : 0 < N)
    (i j : Nat) (hi : i < N) (hj : j < N) :
    resultChunkBytes ((partition_replicated_paths replicated_paths
        chunking_instructions N).getD i ([], [])) ≤
      resultChunkBytes ((partition_replicated_paths replicated_paths
        chunking_instructions N).getD j ([], [])) +
      largestChunkBytes replicated_paths chunking_instructions := by
  have key : ∀ r, r < N →
      resultChunkBytes ((partition_replicated_paths replicated_paths
          chunking_instructions N).getD r ([], [])) =
        (sizesOnly (sortedChunkedPaths replicated_paths chunking_instructions)
          (List.replicate N 0)).getD r 0 := by
    intro r hr
    simp only [partition_replicated_paths, resultChunkBytes]
    rw [roundRobin_getD_fst]
    rw [greedy_fst_getD _ _ _ (by simp) r (by simp [hr])]
    rw [list_getD_replicate_any _ _ N r hr]
    rw [applyAssigned_bytes _ _ (by simp)]
    rw [sizesOnly_getD _ _ r (by simp [hr])]
    rw [list_getD_replicate_any _ _ N r hr]
    have hcong : ∀ x ∈ (assignSeq
        (sortedChunkedPaths replicated_paths chunking_instructions)
        (List.replicate N 0)).filter (fun x => decide (x.2 = r)),
        chunkByteSize x.1.2.1 = x.1.2.2 := by
      intro x hx
      have hx' := List.mem_of_mem_filter hx
      have hmemS := assignSeq_mem _ _ x hx'
      have hmemC : x.1 ∈ collectChunkedPaths replicated_paths
          chunking_instructions :=
        (List.perm_insertionSort chunkSizeDescR _).subset hmemS
      exact (collectChunked_snd _ _ x.1 hmemC).symm
    simp only [sortedChunkedPaths] at hcong
    rw [List.map_congr_left hcong]
    simp [chunkMapBytes, sortedChunkedPaths]
  rw [key i hi, key j hj]
  have hC : ∀ it ∈ sortedChunkedPaths replicated_paths chunking_instructions,
      it.2.2 ≤ largestChunkBytes replicated_paths chunking_instructions := by
    intro it hit
    have hmemC : it ∈ collectChunkedPaths replicated_paths chunking_instructions :=
      (List.perm_insertionSort chunkSizeDescR _).subset hit
    exact le_foldr_max _ _ (List.mem_map_of_mem (·.2.2) hmemC)
  have hinv0 : ∀ a b, a < (List.replicate N (0 : Nat)).length →
      b < (List.replicate N (0 : Nat)).length →
      (List.replicate N (0 : Nat)).getD a 0 ≤
        (List.replicate N (0 : Nat)).getD b 0 +
          largestChunkBytes replicated_paths chunking_instructions := by
    intro a b ha hb
    rw [List.length_replicate] at ha hb
    rw [list_getD_replicate_any _ _ N a ha, list_getD_replicate_any _ _ N b hb]
    omega
  exact sizesOnly_bound _ _ hC (List.replicate N 0) hinv0 i j
    (by simp [hi]) (by simp [hj])

/-- C4 witness (amended theorem): the chunk-byte balance bound at a concrete
three-path, two-rank instance. -/
theorem partition_chunk_balance_witness :
    0 < 2 ∧
    resultChunkBytes ((partition_replicated_paths ["a", "b", "c"]
        partitionWitnessCI 2).getD 0 ([], [])) ≤
      resultChunkBytes ((partition_replicated_paths ["a", "b", "c"]
        partitionWitnessCI 2).getD 1 ([], [])) +
      largestChunkBytes ["a", "b", "c"] partitionWitnessCI :=
  ⟨by decide,
    partition_chunk_balance ["a", "b", "c"] partitionWitnessCI 2 (by decide)
      0 1 (by decide) (by decide)⟩

/-! ### Association-list lookup lemmas (Python dict operations) -/

theorem lookup_append_some {κ ν : Type} [BEq κ] (l1 l2 : List (κ × ν)) (p : κ)
    (v : ν) (h : l1.lookup p = some v) : (l1 ++ l2).lookup p = some v := by
  induction l1 with
  | nil => simp [List.lookup] at h
  | cons e rest ih =>
    obtain ⟨k, w⟩ := e
    simp only [List.cons_append, List.lookup] at h ⊢
    cases hpk : p == k with
    | true => rw [hpk] at h; simpa using h
    | false => rw [hpk] at h; simp only [] ; exact ih h

theorem lookup_append_none {κ ν : Type} [BEq κ] (l1 l2 : List (κ × ν)) (p : κ)
    (h : l1.lookup p = none) : (l1 ++ l2).lookup p = l2.lookup p := by
  induction l1 with
  | nil => rfl
  | cons e rest ih =>
    obtain ⟨k, w⟩ := e
    simp only [List.cons_append, List.lookup] at h ⊢
    cases hpk : p == k with
    | true => rw [hpk] at h; simp at h
    | false => rw [hpk] at h; exact ih h

theorem lookup_map_value {κ ν : Type} [BEq κ] (m : List (κ × ν)) (f : ν → ν)
    (p : κ) :
    (m.map (fun pe => (pe.1, f pe.2))).lookup p = (m.lookup p).map f := by
  induction m with
  | nil => rfl
  | cons e rest ih =>
    obtain ⟨k, w⟩ := e
    simp only [List.map_cons, List.lookup]
    cases hpk : p == k with
    | true => rfl
    | false => exact ih

theorem lookup_keypreserving_none {κ ν : Type} [BEq κ] (m : List (κ × ν))
    (g : κ × ν → ν) (p : κ) (hp : m.lookup p = none) :
    (m.map (fun pe => (pe.1, g pe))).lookup p = none := by
  induction m with
  | nil => rfl
  | cons e rest ih =>
    obtain ⟨k, w⟩ := e
    simp only [List.map_cons, List.lookup] at hp ⊢
    cases hpk : p == k with
    | true => rw [hpk] at hp; simp at hp
    | false => rw [hpk] at hp; exact ih hp

theorem lookup_keypreserving_some {κ ν : Type} [BEq κ] [LawfulBEq κ]
    (m : List (κ × ν)) (g : κ × ν → ν) (p : κ) (v : ν)
    (hp : m.lookup p = some v) :
    (m.map (fun pe => (pe.1, g pe))).lookup p = some (g (p, v)) := by
  induction m with
  | nil => simp [List.lookup] at hp
  | cons e rest ih =>
    obtain ⟨k, w⟩ := e
    simp only [List.map_cons, List.lookup] at hp ⊢
    cases hpk : p == k with
    | true =>
      rw [hpk] at hp
      simp only [Option.some.injEq] at hp
      have hk : p = k := eq_of_beq hpk
      subst hk
      subst hp
      rfl
    | false => rw [hpk] at hp; exact ih hp

theorem lookup_update_self (m : List (String × Entry)) (p : String)
    (e' : Entry) :
    ∀ v : Entry, m.lookup p = some v →
    (m.map (fun pe => if pe.1 = p then (pe.1, e') else pe)).lookup p = some e' := by
  induction m with
  | nil => intro v hv; simp [List.lookup] at hv
  | cons e rest ih =>
    intro v hv
    obtain ⟨k, w⟩ := e
    by_cases hkp : k = p
    · subst hkp
      simp only [List.map_cons]
      rw [if_pos trivial]
      simp [List.lookup]
    · simp only [List.map_cons]
      rw [if_neg (show ¬ ((k, w) : String × Entry).1 = p from hkp)]
      have hpk : (p == k) = false :=
        beq_eq_false_iff_ne.mpr (fun h => hkp h.symm)
      simp only [List.lookup, hpk] at hv ⊢
      exact ih v hv

theorem lookup_update_other (m : List (String × Entry)) (p q : String)
    (e' : Entry) (hq : q ≠ p) :
    (m.map (fun pe => if pe.1 = p then (pe.1, e') else pe)).lookup q =
      m.lookup q := by
  induction m with
  | nil => rfl
  | cons e rest ih =>
    obtain ⟨k, w⟩ := e
    by_cases hkp : k = p
    · subst hkp
      simp only [List.map_cons]
      rw [if_pos trivial]
      have hqk : (q == k) = false := beq_eq_false_iff_ne.mpr hq
      simp only [List.lookup, hqk]
      exact ih
    · simp only [List.map_cons]
      rw [if_neg (show ¬ ((k, w) : String × Entry).1 = p from hkp)]
      simp only [List.lookup]
      cases hqk : q == k with
      | true => rfl
      | false => exact ih

theorem lookup_filter_none_key (repl m : List (String × Entry)) (p : String)
    (hp : m.lookup p = none) :
    (repl.filter (fun pe => (m.lookup pe.1).isNone)).lookup p =
      repl.lookup p := by
  induction repl with
  | nil => rfl
  | cons e rest ih =>
    obtain ⟨k, w⟩ := e
    by_cases hpk : p = k
    · subst hpk
      have hkeep : (m.lookup p).isNone = true := by rw [hp]; rfl
      simp only [List.filter_cons, hkeep, if_true]
      simp [List.lookup]
    · have hqk : (p == k) = false := beq_eq_false_iff_ne.mpr hpk
      cases hkeep : (m.lookup k).isNone with
      | true =>
        simp only [List.filter_cons, hkeep, if_true]
        simp only [List.lookup, hqk]
        exact ih
      | false =>
        simp only [List.filter_cons, hkeep]
        rw [if_neg (by simp)]
        rw [ih]
        simp only [List.lookup, hqk]

theorem lookup_append_singleton_other (acc : List (String × Entry)) (q : String)
    (e : Entry) (p : String) (hpq : p ≠ q) :
    (acc ++ [(q, e)]).lookup p = acc.lookup p := by
  cases hacc : acc.lookup p with
  | some v => exact lookup_append_some _ _ _ _ hacc
  | none =>
    rw [lookup_append_none _ _ _ hacc]
    simp only [List.lookup]
    have : (p == q) = false := by
      simp only [beq_eq_false_iff_ne]
      exact hpq
    rw [this]

theorem lookup_append_singleton_self (acc : List (String × Entry)) (q : String)
    (e : Entry) (h : acc.lookup q = none) :
    (acc ++ [(q, e)]).lookup q = some e := by
  rw [lookup_append_none _ _ _ h]
  simp [List.lookup]

theorem lookup_applyReplicated_some (m repl : List (String × Entry))
    (p : String) (e : Entry) (h : repl.lookup p = some e) :
    (applyReplicatedToManifest m repl).lookup p = some e := by
  unfold applyReplicatedToManifest
  cases hm : m.lookup p with
  | some v =>
    refine lookup_append_some _ _ _ _ ?_
    rw [lookup_keypreserving_some m
      (fun pe => match repl.lookup pe.1 with | some e => e | none => pe.2) p v hm]
    simp [h]
  | none =>
    rw [lookup_append_none _ _ _ (lookup_keypreserving_none m _ p hm)]
    rw [lookup_filter_none_key _ _ _ hm]
    exact h

theorem lookup_applyReplicated_none (m repl : List (String × Entry))
    (p : String) (h : repl.lookup p = none) :
    (applyReplicatedToManifest m repl).lookup p = m.lookup p := by
  unfold applyReplicatedToManifest
  cases hm : m.lookup p with
  | some v =>
    refine lookup_append_some _ _ _ _ ?_
    rw [lookup_keypreserving_some m
      (fun pe => match repl.lookup pe.1 with | some e => e | none => pe.2) p v hm]
    simp [h]
  | none =>
    rw [lookup_append_none _ _ _ (lookup_keypreserving_none m _ p hm)]
    rw [lookup_filter_none_key _ _ _ hm]
    exact h

/-! ### The first `_gather_manifest` loop as a fold, and its per-path
characterization -/

theorem foldRepl_nil (acc : List (String × Entry)) :
    foldRepl acc [] = Except.ok acc := rfl

theorem foldRepl_cons (acc : List (String × Entry)) (pe : String × Entry)
    (l : List (String × Entry)) :
    foldRepl acc (pe :: l) =
      match (if is_replicated pe.2 then extendReplicatedEntry acc pe.1 pe.2
             else Except.ok acc) with
      | Except.error e => Except.error e
      | Except.ok acc' => foldRepl acc' l := by
  simp only [foldRepl, List.foldlM_cons]
  cases (if is_replicated pe.2 then extendReplicatedEntry acc pe.1 pe.2
         else Except.ok acc) <;> rfl

theorem collect_eq_foldRepl (manifests : List LocalManifest) :
    collectReplicatedEntries manifests = foldRepl [] (manifests.flatMap id) := by
  have haux : ∀ (ms : List LocalManifest) (acc : List (String × Entry)),
      ms.foldlM (fun acc m => foldRepl acc m) acc = foldRepl acc (ms.flatMap id) := by
    intro ms
    induction ms with
    | nil => intro acc; rfl
    | cons m ms ih =>
      intro acc
      have happ : ∀ (l1 l2 : List (String × Entry)) (a : List (String × Entry)),
          foldRepl a (l1 ++ l2) =
            match foldRepl a l1 with
            | Except.error e => Except.error e
            | Except.ok a' => foldRepl a' l2 := by
        intro l1
        induction l1 with
        | nil => intro l2 a; rfl
        | cons pe l1 ih1 =>
          intro l2 a
          rw [List.cons_append, foldRepl_cons, foldRepl_cons]
          cases (if is_replicated pe.2 then extendReplicatedEntry a pe.1 pe.2
                 else Except.ok a) with
          | error e => rfl
          | ok a' => exact ih1 l2 a'
      simp only [List.foldlM_cons, List.flatMap_cons]
      rw [happ]
      cases hm : foldRepl acc m with
      | error e =>
        simp only [id_eq, hm]
        rfl
      | ok acc' =>
        simp only [id_eq, hm]
        exact ih acc'
  exact haux manifests []

theorem pathContribs_nil (p : String) : pathContribs [] p = [] := rfl

theorem combineContribs_none_cons (e : Entry) (t : List Entry) :
    combineContribs none (e :: t) = combineContribs (some e) t := rfl

/-- Per-path characterization of the accumulated `replicated_entries` dict:
after a successful fold, looking up any path gives exactly the fold of that
path's contributions. -/
theorem foldRepl_ok_lookup (l : List (String × Entry)) :
    ∀ (acc res : List (String × Entry)), foldRepl acc l = Except.ok res →
    ∀ p, ∃ o, combineContribs (acc.lookup p) (pathContribs l p) = Except.ok o
      ∧ res.lookup p = o := by
  induction l with
  | nil =>
    intro acc res h p
    rw [foldRepl_nil] at h
    injection h with h'
    subst h'
    exact ⟨acc.lookup p, rfl, rfl⟩
  | cons pe l ih =>
    intro acc res h p
    rw [foldRepl_cons] at h
    cases hrep : is_replicated pe.2 with
    | false =>
      rw [if_neg (by simp [hrep])] at h
      have hpc : pathContribs (pe :: l) p = pathContribs l p := by
        simp [pathContribs, List.filter_cons, hrep]
      rw [hpc]
      exact ih acc res h p
    | true =>
      rw [if_pos hrep] at h
      cases hstep : extendReplicatedEntry acc pe.1 pe.2 with
      | error e => rw [hstep] at h; cases h
      | ok acc₁ =>
        rw [hstep] at h
        by_cases hpe : pe.1 = p
        · subst hpe
          have hpc : pathContribs (pe :: l) pe.1 = pe.2 :: pathContribs l pe.1 := by
            simp [pathContribs, List.filter_cons, hrep]
          rw [hpc]
          cases hacc : acc.lookup pe.1 with
          | none =>
            simp only [extendReplicatedEntry, hacc] at hstep
            injection hstep with h₁
            subst h₁
            have hl1 : (acc ++ [(pe.1, pe.2)]).lookup pe.1 = some pe.2 :=
              lookup_append_singleton_self acc pe.1 pe.2 hacc
            obtain ⟨o, hc, hr⟩ := ih _ res h pe.1
            rw [hl1] at hc
            refine ⟨o, ?_, hr⟩
            rw [combineContribs_none_cons]
            exact hc
          | some old =>
            cases hpe2 : pe.2 with
            | chunkedTensor cs r =>
              cases old with
              | chunkedTensor cs0 r0 =>
                rw [hpe2] at hstep
                simp only [extendReplicatedEntry, hacc] at hstep
                injection hstep with h₁
                subst h₁
                have hl1 : ((acc.map (fun qe =>
                    if qe.1 = pe.1
                    then (qe.1, Entry.chunkedTensor (cs0 ++ cs) r0) else qe)).lookup
                      pe.1) = some (Entry.chunkedTensor (cs0 ++ cs) r0) :=
                  lookup_update_self acc pe.1 _ (Entry.chunkedTensor cs0 r0) hacc
                obtain ⟨o, hc, hr⟩ := ih _ res h pe.1
                rw [hl1] at hc
                exact ⟨o, hc, hr⟩
              | primitive b =>
                rw [hpe2] at hstep
                simp only [extendReplicatedEntry, hacc] at hstep
                exact Except.noConfusion hstep
              | tensor b =>
                rw [hpe2] at hstep
                simp only [extendReplicatedEntry, hacc] at hstep
                exact Except.noConfusion hstep
              | sharded b =>
                rw [hpe2] at hstep
                simp only [extendReplicatedEntry, hacc] at hstep
                exact Except.noConfusion hstep
            | primitive b =>
              rw [hpe2] at hstep
              simp only [extendReplicatedEntry, hacc] at hstep
              exact Except.noConfusion hstep
            | tensor b =>
              rw [hpe2] at hstep
              simp only [extendReplicatedEntry, hacc] at hstep
              exact Except.noConfusion hstep
            | sharded b =>
              rw [hpe2] at hstep
              simp only [extendReplicatedEntry, hacc] at hstep
              exact Except.noConfusion hstep
        · have hpc : pathContribs (pe :: l) p = pathContribs l p := by
            simp [pathContribs, List.filter_cons, hpe]
          have hl1 : acc₁.lookup p = acc.lookup p := by
            cases hacc : acc.lookup pe.1 with
            | none =>
              simp only [extendReplicatedEntry, hacc] at hstep
              injection hstep with h₁
              subst h₁
              exact lookup_append_singleton_other acc pe.1 pe.2 p
                (fun hh => hpe hh.symm)
            | some old =>
              cases hpe2 : pe.2 with
              | chunkedTensor cs r =>
                cases old with
                | chunkedTensor cs0 r0 =>
                  rw [hpe2] at hstep
                  simp only [extendReplicatedEntry, hacc] at hstep
                  injection hstep with h₁
                  subst h₁
                  exact lookup_update_other acc pe.1 p _
                    (fun hh => hpe hh.symm)
                | primitive b =>
                  rw [hpe2] at hstep
                  simp only [extendReplicatedEntry, hacc] at hstep
                  exact Except.noConfusion hstep
                | tensor b =>
                  rw [hpe2] at hstep
                  simp only [extendReplicatedEntry, hacc] at hstep
                  exact Except.noConfusion hstep
                | sharded b =>
                  rw [hpe2] at hstep
                  simp only [extendReplicatedEntry, hacc] at hstep
                  exact Except.noConfusion hstep
              | primitive b =>
                rw [hpe2] at hstep
                simp only [extendReplicatedEntry, hacc] at hstep
                exact Except.noConfusion hstep
              | tensor b =>
                rw [hpe2] at hstep
                simp only [extendReplicatedEntry, hacc] at hstep
                exact Except.noConfusion hstep
              | sharded b =>
                rw [hpe2] at hstep
                simp only [extendReplicatedEntry, hacc] at hstep
                exact Except.noConfusion hstep
          rw [hpc, ← hl1]
          exact ih acc₁ res h p

/-- Folding contributions from a chunked first entry: success requires every
later contribution to be chunked, and the result concatenates all chunk
lists in contribution order. -/
theorem combine_some_ok_structure (t : List Entry) :
    ∀ (a : Entry) (o : Option Entry),
    combineContribs (some a) t = Except.ok o →
    (t = [] → o = some a) ∧
    (t ≠ [] → ∃ cs0 r0, a = Entry.chunkedTensor cs0 r0 ∧
      o = some (Entry.chunkedTensor (cs0 ++ contribChunks t) r0)) := by
  induction t with
  | nil =>
    intro a o h
    refine ⟨fun _ => ?_, fun hne => absurd rfl hne⟩
    simp only [combineContribs, Except.ok.injEq] at h
    exact h.symm
  | cons e rest ih =>
    intro a o h
    refine ⟨fun hc => absurd hc (List.cons_ne_nil e rest), fun _ => ?_⟩
    cases he : e with
    | chunkedTensor cs r =>
      cases ha : a with
      | chunkedTensor cs0 r0 =>
        rw [he, ha] at h
        simp only [combineContribs] at h
        have := ih (Entry.chunkedTensor (cs0 ++ cs) r0) o h
        by_cases hr : rest = []
        · subst hr
          refine ⟨cs0, r0, rfl, ?_⟩
          rw [this.1 rfl]
          simp [contribChunks, he]
        · obtain ⟨cs0', r0', heq, ho⟩ := this.2 hr
          injection heq with h1 h2
          subst h1; subst h2
          refine ⟨cs0, r0, rfl, ?_⟩
          rw [ho]
          simp [contribChunks, he, List.append_assoc]
      | primitive b =>
        rw [he, ha] at h
        simp only [combineContribs] at h
        exact Except.noConfusion h
      | tensor b =>
        rw [he, ha] at h
        simp only [combineContribs] at h
        exact Except.noConfusion h
      | sharded b =>
        rw [he, ha] at h
        simp only [combineContribs] at h
        exact Except.noConfusion h
    | primitive b =>
      rw [he] at h
      simp only [combineContribs] at h
      exact Except.noConfusion h
    | tensor b =>
      rw [he] at h
      simp only [combineContribs] at h
      exact Except.noConfusion h
    | sharded b =>
      rw [he] at h
      simp only [combineContribs] at h
      exact Except.noConfusion h

/-- Folding the contributions fails whenever there is more than one and the
first is not chunked, or any later one is not chunked. -/
theorem combine_some_error (t : List Entry) :
    ∀ a : Entry,
    ((a.isChunkedTensor = false ∧ t ≠ []) ∨
      ∃ e ∈ t, e.isChunkedTensor = false) →
    ∀ o, combineContribs (some a) t ≠ Except.ok o := by
  induction t with
  | nil =>
    intro a h o
    rcases h with ⟨_, hne⟩ | ⟨e, he, _⟩
    · exact absurd rfl hne
    · simp at he
  | cons e rest ih =>
    intro a h o hok
    cases hee : e with
    | chunkedTensor cs r =>
      cases ha : a with
      | chunkedTensor cs0 r0 =>
        rw [hee, ha] at hok
        simp only [combineContribs] at hok
        have hwit : ∃ w ∈ rest, w.isChunkedTensor = false := by
          rcases h with ⟨hanc, _⟩ | ⟨w, hw, hwnc⟩
          · rw [ha] at hanc; simp [Entry.isChunkedTensor] at hanc
          · rcases List.mem_cons.mp hw with rfl | hw'
            · rw [hee] at hwnc; simp [Entry.isChunkedTensor] at hwnc
            · exact ⟨w, hw', hwnc⟩
        obtain ⟨w, hw, hwnc⟩ := hwit
        exact ih (Entry.chunkedTensor (cs0 ++ cs) r0)
          (Or.inr ⟨w, hw, hwnc⟩) o hok
      | primitive b =>
        rw [hee, ha] at hok
        simp only [combineContribs] at hok
        exact Except.noConfusion hok
      | tensor b =>
        rw [hee, ha] at hok
        simp only [combineContribs] at hok
        exact Except.noConfusion hok
      | sharded b =>
        rw [hee, ha] at hok
        simp only [combineContribs] at hok
        exact Except.noConfusion hok
    | primitive b =>
      rw [hee] at hok
      simp only [combineContribs] at hok
      exact Except.noConfusion hok
    | tensor b =>
      rw [hee] at hok
      simp only [combineContribs] at hok
      exact Except.noConfusion hok
    | sharded b =>
      rw [hee] at hok
      simp only [combineContribs] at hok
      exact Except.noConfusion hok

/-! ### Python list comparison on chunk offsets is a total preorder -/

theorem lexLe_total (a b : List Nat) : lexLe a b = true ∨ lexLe b a = true := by
  induction a generalizing b with
  | nil => left; rfl
  | cons x xs ih =>
    cases b with
    | nil => right; rfl
    | cons y ys =>
      by_cases hxy : x < y
      · left; simp [lexLe, hxy]
      · by_cases hyx : y < x
        · right; simp [lexLe, hyx]
        · have hxy' : x = y := by omega
          subst hxy'
          rcases ih ys with h | h
          · left; simp [lexLe, h]
          · right; simp [lexLe, h]

theorem lexLe_trans (a : List Nat) :
    ∀ b c : List Nat, lexLe a b = true → lexLe b c = true →
    lexLe a c = true := by
  induction a with
  | nil => intro b c _ _; rfl
  | cons x xs ih =>
    intro b c hab hbc
    cases b with
    | nil => simp [lexLe] at hab
    | cons y ys =>
      cases c with
      | nil => simp [lexLe] at hbc
      | cons z zs =>
        simp only [lexLe] at hab hbc ⊢
        by_cases h1 : x < y
        · by_cases h2 : y < z
          · rw [if_pos (by omega : x < z)]
          · by_cases h3 : z < y
            · rw [if_neg h2, if_pos h3] at hbc; cases hbc
            · have : y = z := by omega
              rw [if_pos (by omega : x < z)]
        · by_cases h1' : y < x
          · rw [if_neg h1, if_pos h1'] at hab; cases hab
          · have hxy' : x = y := by omega
            by_cases h2 : y < z
            · rw [if_pos (by omega : x < z)]
            · by_cases h3 : z < y
              · rw [if_neg h2, if_pos h3] at hbc; cases hbc
              · rw [if_neg h1, if_neg h1'] at hab
                rw [if_neg h2, if_neg h3] at hbc
                rw [if_neg (by omega : ¬ x < z), if_neg (by omega : ¬ z < x)]
                exact ih ys zs hab hbc

instance : IsTotal Chunk chunkOffsetsLeR :=
  ⟨fun a b => lexLe_total a.offsets b.offsets⟩

instance : IsTrans Chunk chunkOffsetsLeR :=
  ⟨fun a b c => lexLe_trans a.offsets b.offsets c.offsets⟩

/-! ### Lookup in the rank-prefixed global manifest -/

theorem lookup_rank_block (r' : Nat) (mm : List (String × Entry)) (r : Nat)
    (p : String) :
    ((mm.map (fun pe => ((r', pe.1), pe.2))).lookup (r, p)) =
      if r = r' then mm.lookup p else none := by
  induction mm with
  | nil => simp [List.lookup]
  | cons e rest ih =>
    obtain ⟨k, w⟩ := e
    by_cases hr : r = r'
    · subst hr
      by_cases hp : p = k
      · subst hp
        simp [List.lookup, List.map_cons]
      · have h1 : ((r, p) == (r, k)) = false := by simp [hp]
        have h2 : (p == k) = false := beq_eq_false_iff_ne.mpr hp
        simp only [List.map_cons, List.lookup, h1, h2, ih, if_pos rfl]
    · have h1 : ((r, p) == (r', k)) = false := by simp [hr]
      simp only [List.map_cons, List.lookup, h1, ih, if_neg hr]

theorem lookup_blocks_lt (ms : List (List (String × Entry))) :
    ∀ (k r : Nat) (p : String), r < k →
    ((List.enumFrom k ms).flatMap (fun rm =>
      rm.2.map (fun pe => ((rm.1, pe.1), pe.2)))).lookup (r, p) = none := by
  induction ms with
  | nil => intro k r p _; rfl
  | cons m ms ih =>
    intro k r p hrk
    simp only [List.enumFrom, List.flatMap_cons]
    rw [lookup_append_none]
    · exact ih (k + 1) r p (by omega)
    · rw [lookup_rank_block, if_neg (by omega)]

theorem lookup_blocks (ms : List (List (String × Entry))) :
    ∀ (k r : Nat) (p : String), k ≤ r → r - k < ms.length →
    ((List.enumFrom k ms).flatMap (fun rm =>
      rm.2.map (fun pe => ((rm.1, pe.1), pe.2)))).lookup (r, p) =
      (ms.getD (r - k) []).lookup p := by
  induction ms with
  | nil => intro k r p _ h; simp at h
  | cons m ms ih =>
    intro k r p hkr hlen
    simp only [List.enumFrom, List.flatMap_cons]
    by_cases hrk : r = k
    · subst hrk
      have hself : ((m.map (fun pe => ((r, pe.1), pe.2))).lookup (r, p)) =
          m.lookup p := by
        rw [lookup_rank_block, if_pos rfl]
      cases hm : m.lookup p with
      | some v =>
        rw [Nat.sub_self]
        have hls : ((m.map (fun pe => ((r, pe.1), pe.2))).lookup (r, p)) =
            some v := by
          rw [hself, hm]
        rw [lookup_append_some _ _ _ _ hls]
        simp [hm]
      | none =>
        rw [Nat.sub_self]
        rw [lookup_append_none _ _ _ (by rw [hself, hm])]
        rw [lookup_blocks_lt ms (r + 1) r p (by omega)]
        simp [hm]
    · have hk1 : k + 1 ≤ r := by omega
      rw [lookup_append_none _ _ _ (by rw [lookup_rank_block, if_neg (by omega)])]
      rw [ih (k + 1) r p hk1 (by simp at hlen; omega)]
      have : r - k = (r - (k + 1)) + 1 := by omega
      rw [this, list_getD_cons_succ]

theorem enumFrom_map_snd {α β : Type} (f : α → β) (l : List α) :
    ∀ k, List.enumFrom k (l.map f) =
      (List.enumFrom k l).map (fun x => (x.1, f x.2)) := by
  induction l with
  | nil => intro k; rfl
  | cons a l ih =>
    intro k
    simp only [List.map_cons, List.enumFrom, ih (k + 1)]

theorem flatMap_map_comp {α β γ : Type} (l : List α) (f : α → β)
    (g : β → List γ) :
    (l.map f).flatMap g = l.flatMap (fun a => g (f a)) := by
  induction l with
  | nil => rfl
  | cons a l ih => simp only [List.map_cons, List.flatMap_cons, ih]

theorem list_getD_map {α β : Type} (l : List α) (f : α → β) (i : Nat)
    (d : β) (d0 : α) (h : i < l.length) :
    (l.map f).getD i d = f (l.getD i d0) := by
  induction l generalizing i with
  | nil => simp at h
  | cons a l ih =>
    cases i with
    | zero => rfl
    | succ n => exact ih n (by simpa using h)

/-- Helper for C5: a path merged into `replicated_entries` appears, chunk
lists sorted, under every rank prefix of the global manifest. -/
theorem gather_global_lookup (manifests : List LocalManifest)
    (repl : List (String × Entry)) (p : String) (e0 : Entry)
    (hrepl : repl.lookup p = some e0) (r : Nat) (hr : r < manifests.length) :
    (((manifests.enum).flatMap (fun rm =>
        (applyReplicatedToManifest rm.2
          (repl.map (fun pe => (pe.1, sortEntryChunks pe.2)))).map
          (fun pe => ((rm.1, pe.1), pe.2)))).lookup (r, p)) =
      some (sortEntryChunks e0) := by
  have hbridge : (manifests.enum).flatMap (fun rm =>
      (applyReplicatedToManifest rm.2
        (repl.map (fun pe => (pe.1, sortEntryChunks pe.2)))).map
        (fun pe => ((rm.1, pe.1), pe.2))) =
      (List.enumFrom 0 (manifests.map (fun m => applyReplicatedToManifest m
        (repl.map (fun pe => (pe.1, sortEntryChunks pe.2)))))).flatMap
        (fun rm => rm.2.map (fun pe => ((rm.1, pe.1), pe.2))) := by
    rw [enumFrom_map_snd]
    rw [flatMap_map_comp]
    rfl
  rw [hbridge]
  rw [lookup_blocks _ 0 r p (Nat.zero_le r) (by simpa using hr)]
  rw [Nat.sub_zero]
  rw [list_getD_map _ _ r [] [] (by simpa using hr)]
  apply lookup_applyReplicated_some
  rw [lookup_map_value, hrepl]
  rfl

/-- C5: `_gather_manifest` (lines 954-986).  On success, every path with at
least one replicated contribution is mapped, under every rank prefix of the
global manifest, to one and the same merged entry; when the merge combined
chunked contributions, the merged chunk list is a permutation of the
concatenation of all contributed chunk lists and is sorted by chunk offsets
(Python list order); and if more than one rank contributes an entry for a
replicated path and any contribution is not a `ChunkedTensorEntry`, the
merge raises an error. -/
theorem gather_manifest_spec (manifests : List LocalManifest) :
    (∀ g, gather_manifest manifests = Except.ok g →
      ∀ p, replicatedContribs manifests p ≠ [] →
        ∃ e, (∀ r, r < manifests.length → g.lookup (r, p) = some e)
          ∧ ((∃ cs rep, e = Entry.chunkedTensor cs rep
                ∧ cs.Perm (contribChunks (replicatedContribs manifests p))
                ∧ List.Pairwise chunkOffsetsLeR cs)
              ∨ replicatedContribs manifests p = [e]))
    ∧ (∀ p, 2 ≤ (replicatedContribs manifests p).length →
        (∃ e ∈ replicatedContribs manifests p, e.isChunkedTensor = false) →
        ∀ g, gather_manifest manifests ≠ Except.ok g) := by
  constructor
  · intro g hg p hne
    cases hc : collectReplicatedEntries manifests with
    | error err =>
      rw [gather_manifest, hc] at hg
      cases hg
    | ok repl =>
      rw [gather_manifest, hc] at hg
      injection hg with hg'
      subst hg'
      have hfold : foldRepl [] (manifests.flatMap id) = Except.ok repl := by
        rw [← collect_eq_foldRepl]
        exact hc
      obtain ⟨o, hcomb, hlook⟩ := foldRepl_ok_lookup _ [] repl hfold p
      have hcomb' : combineContribs none (replicatedContribs manifests p) =
          Except.ok o := hcomb
      obtain ⟨e0, t, hct⟩ := List.exists_cons_of_ne_nil hne
      rw [hct, combineContribs_none_cons] at hcomb'
      by_cases ht : t = []
      · subst ht
        have ho : o = some e0 := by
          simp only [combineContribs, Except.ok.injEq] at hcomb'
          exact hcomb'.symm
        subst ho
        refine ⟨sortEntryChunks e0, fun r hr =>
          gather_global_lookup manifests repl p e0 hlook r hr, ?_⟩
        cases he0 : e0 with
        | chunkedTensor cs0 r0 =>
          left
          refine ⟨List.insertionSort chunkOffsetsLeR cs0, r0, by
            simp [sortEntryChunks], ?_, ?_⟩
          · rw [hct, he0]
            have : contribChunks [Entry.chunkedTensor cs0 r0] = cs0 := by
              simp [contribChunks]
            rw [this]
            exact List.perm_insertionSort _ _
          · exact List.sorted_insertionSort _ _
        | primitive b =>
          right
          rw [hct, he0]
          simp [sortEntryChunks]
        | tensor b =>
          right
          rw [hct, he0]
          simp [sortEntryChunks]
        | sharded b =>
          right
          rw [hct, he0]
          simp [sortEntryChunks]
      · obtain ⟨cs0, r0, he0, ho⟩ :=
          (combine_some_ok_structure t e0 o hcomb').2 ht
        subst ho
        have hfull : cs0 ++ contribChunks t =
            contribChunks (replicatedContribs manifests p) := by
          rw [hct, he0]
          simp [contribChunks]
        refine ⟨sortEntryChunks (Entry.chunkedTensor (cs0 ++ contribChunks t) r0),
          fun r hr => gather_global_lookup manifests repl p _ hlook r hr, ?_⟩
        left
        refine ⟨List.insertionSort chunkOffsetsLeR (cs0 ++ contribChunks t), r0,
          by simp [sortEntryChunks], ?_, ?_⟩
        · rw [← hfull]
          exact List.perm_insertionSort _ _
        · exact List.sorted_insertionSort _ _
  · intro p h2 hnc g hg
    cases hc : collectReplicatedEntries manifests with
    | error err =>
      rw [gather_manifest, hc] at hg
      cases hg
    | ok repl =>
      have hfold : foldRepl [] (manifests.flatMap id) = Except.ok repl := by
        rw [← collect_eq_foldRepl]
        exact hc
      obtain ⟨o, hcomb, _⟩ := foldRepl_ok_lookup _ [] repl hfold p
      have hcomb' : combineContribs none (replicatedContribs manifests p) =
          Except.ok o := hcomb
      obtain ⟨e0, t, hct⟩ : ∃ e0 t, replicatedContribs manifests p = e0 :: t :=
        List.exists_cons_of_ne_nil (by
          intro hemp
          rw [hemp] at h2
          simp at h2)
      rw [hct, combineContribs_none_cons] at hcomb'
      have htne : t ≠ [] := by
        intro hemp
        rw [hct, hemp] at h2
        simp at h2
      obtain ⟨w, hw, hwnc⟩ := hnc
      rw [hct] at hw
      rcases List.mem_cons.mp hw with rfl | hw'
      · exact combine_some_error t w (Or.inl ⟨hwnc, htne⟩) o hcomb'
      · exact combine_some_error t e0 (Or.inr ⟨w, hw', hwnc⟩) o hcomb'

/-- C5 witness: two ranks each contribute one chunk of the replicated
chunked entry `w`; the merged entry appears under both rank prefixes with
its chunks sorted by offsets. -/
theorem gather_manifest_spec_witness :
    replicatedContribs gatherWitnessManifests "w" ≠ []
    ∧ ∃ e, (∀ r, r < gatherWitnessManifests.length →
          gatherWitnessResult.lookup (r, "w") = some e)
        ∧ ((∃ cs rep, e = Entry.chunkedTensor cs rep
              ∧ cs.Perm (contribChunks (replicatedContribs gatherWitnessManifests "w"))
              ∧ List.Pairwise chunkOffsetsLeR cs)
            ∨ replicatedContribs gatherWitnessManifests "w" = [e]) :=
  ⟨by decide,
    (gather_manifest_spec gatherWitnessManifests).1 gatherWitnessResult
      (by rfl) "w" (by decide)⟩

end TorchSnapshot
